import Mathlib

/-!
Verification of the TPL query-execution engine against its natural-language
specification.  Each C++ routine named in the claims is shallowly embedded as
an executable Lean definition; machine pointers become list/function models,
fallible paths become explicit result types.  Theorems `C1_*` … `C10_*`
settle the individual claims.
-/

namespace TplSpec

/-! ## CLI host binary (`src/tpl.cpp`) -/

/-- Classification of what happens during one invocation of the host binary:
the run succeeds, the arguments are wrong, compilation fails (parser or
type-checker diagnostics), or execution faults at runtime.  In the source all
of these are merely logged; `main` never inspects them. -/
inductive RunResult
  | success
  | argError
  | compileError
  | runtimeError
  deriving DecidableEq, Repr

/-- Shallow embedding of `main` (src/tpl.cpp:184-213).  `RunFile` and
`CompileAndRun` return `void` and report every failure through the logger
only, so `main` reaches its final `return 0;` on every path regardless of
`argc` or of the outcome of the run. -/
def mainExitCode (argc : Nat) (outcome : RunResult) : Int :=
  if argc = 2 then
    -- tpl::RunFile(filename): errors are logged, nothing is returned
    match outcome with
    | _ => 0
  else if argc = 1 then
    -- tpl::RunRepl(): loops until ".exit"; errors are printed, never returned
    0
  else
    -- any other argc: no action is taken before the final return
    0

/-! ## Semantic checking of CompactStorageWrite builtins
(`src/sema/sema_builtin.cpp:1102-1161`) -/

/-- The slice of the TPL type system that
`Sema::CheckBuiltinCompactStorageWriteCall` inspects: pointer-ness and the
specific builtin kinds it compares against. -/
inductive TyKind
  | pointer
  | boolTy
  | integerTy
  | realTy
  | dateTy
  | timestampTy
  | stringValTy
  | int32Ty
  | nilTy
  | otherTy
  deriving DecidableEq, Repr

/-- `Type::IsPointerType()`. -/
def TyKind.isPointer : TyKind → Bool
  | .pointer => true
  | _ => false

/-- The CompactStorageWrite builtin family dispatched by the check. -/
inductive CSWBuiltin
  | writeBool
  | writeTinyInt
  | writeSmallInt
  | writeInteger
  | writeBigInt
  | writeReal
  | writeDouble
  | writeDate
  | writeTimestamp
  | writeString
  deriving DecidableEq, Repr

/-- The SQL-value type each specific builtin expects as its last argument
(src/sema/sema_builtin.cpp:1124-1151). -/
def CSWBuiltin.expectedInput : CSWBuiltin → TyKind
  | .writeBool => .boolTy
  | .writeTinyInt | .writeSmallInt | .writeInteger | .writeBigInt => .integerTy
  | .writeReal | .writeDouble => .realTy
  | .writeDate => .dateTy
  | .writeTimestamp => .timestampTy
  | .writeString => .stringValTy

/-- Result of a semantic check: an argument-count diagnostic, an
incorrect-call-argument diagnostic naming the reported index, or success with
the return type installed on the call expression. -/
inductive CheckResult
  | errArgCount
  | errArg (idx : Nat)
  | ok (retTy : TyKind)
  deriving DecidableEq, Repr

/-- Shallow embedding of `Sema::CheckBuiltinCompactStorageWriteCall`
(src/sema/sema_builtin.cpp:1102-1161).  Each `if` mirrors the source,
including the argument indices the source actually reads: the "third
argument is 4-byte index" test reads `call->Arguments()[1]` — the same slot
that was just required to be a pointer — not `Arguments()[2]`. -/
def checkCompactStorageWrite (b : CSWBuiltin) (args : List TyKind) : CheckResult :=
  if args.length ≠ 4 then .errArgCount
  else if ¬ (args.getD 0 .otherTy).isPointer then .errArg 0
  -- Second argument must be a pointer to the NULL indicators array
  -- (the source reports index 0 in this branch).
  else if ¬ (args.getD 1 .otherTy).isPointer then .errArg 0
  -- "Third argument is 4-byte index": the source tests Arguments()[1] again.
  else if ¬ (args.getD 1 .otherTy = .int32Ty) then .errArg 1
  -- Last argument is the SQL value to write.
  else if ¬ (args.getD 3 .otherTy = b.expectedInput) then .errArg 3
  else .ok .nilTy

/-! ## JoinHashTable insertion and build flag (`src/unnamed/part_005`) -/

/-- State of a `JoinHashTable` at the granularity the claim observes: the
lazy insertion list (most recent first, mirroring the `head_.next` prepend),
the running element count, and the `built_` flag. -/
structure JoinHT where
  entryHashes : List Nat
  numElems : Nat
  built : Bool
  deriving DecidableEq, Repr

/-- A fresh table: empty insertion list, zero elements, not built. -/
def JoinHT.fresh : JoinHT := ⟨[], 0, false⟩

/-- Shallow embedding of `JoinHashTable::AllocInputTuple`
(src/unnamed/part_005:140-149): allocate an entry, prepend it to the lazy
insertion list, bump `num_elems_`.  The source performs no check of `built_`
whatsoever. -/
def JoinHT.allocInputTuple (ht : JoinHT) (h : Nat) : JoinHT :=
  { ht with entryHashes := h :: ht.entryHashes, numElems := ht.numElems + 1 }

/-- Modelled from the spec: `JoinHashTable::Build()` is declared in
src/unnamed/part_005:35 but its definition is not under src/.  Per the spec
("Fully construct the join hash table. If the join hash table has already
been built, do nothing"; "Invariants after build: is_built == true"), it
materializes the table from the insertion list and sets the built flag; it
never clears the flag and adds no entries. -/
def JoinHT.build (ht : JoinHT) : JoinHT :=
  if ht.built then ht else { ht with built := true }

/-- One externally visible operation on a join hash table. -/
inductive JoinHTOp
  | alloc (h : Nat)
  | build
  deriving DecidableEq, Repr

/-- Apply one operation. -/
def JoinHT.applyOp (ht : JoinHT) : JoinHTOp → JoinHT
  | .alloc h => ht.allocInputTuple h
  | .build => ht.build

/-- Run a call sequence from the fresh table. -/
def JoinHT.run (ops : List JoinHTOp) : JoinHT :=
  ops.foldl JoinHT.applyOp JoinHT.fresh

/-! ## Gather+select (`src/sql/vector_operations/gather_select.cpp`) -/

/-- `TupleIdList::Filter(p)`: update the list in place, keeping a live tuple
id exactly when the predicate holds of it.  The list is modeled as the list
of live tuple ids. -/
def tidFilter (l : List Nat) (p : Nat → Bool) : List Nat := l.filter p

/-- `TupleIdList::GetMutableBits()->Difference(null_mask)`: remove every id
whose input is NULL. -/
def tidDifference (l : List Nat) (nullMask : Nat → Bool) : List Nat :=
  l.filter fun i => ¬ nullMask i

/-- Shallow embedding of `TemplatedGatherAndSelectOperation_Constant`
(gather_select.cpp:51-67).  Memory is modeled by the function
`gathered i = *(pointers[i] + offset)` — the typed value the scalar loop
dereferences for tuple id `i`.  If the constant input is NULL the list is
cleared; otherwise each live id is kept exactly when
`op (gathered i) constant` holds. -/
def gatherSelectConstant {α : Type} (op : α → α → Bool) (constIsNull : Bool)
    (constant : α) (gathered : Nat → α) (tidList : List Nat) : List Nat :=
  if constIsNull then []
  else tidFilter tidList fun i => op (gathered i) constant

/-- Shallow embedding of `TemplatedGatherAndSelectOperation_Vector`
(gather_select.cpp:69-82): first strip NULL inputs via the bit-vector
difference with the input's null mask, then filter by
`op (gathered i) (input i)`. -/
def gatherSelectVector {α : Type} (op : α → α → Bool) (input : Nat → α)
    (nullMask : Nat → Bool) (gathered : Nat → α) (tidList : List Nat) : List Nat :=
  tidFilter (tidDifference tidList nullMask) fun i => op (gathered i) (input i)

/-! ## Hash table entries and the JoinHashTable probe iterator
(`src/unnamed/part_005:151-180`) -/

/-- A `HashTableEntry` at the granularity the probe observes: the stored
64-bit hash and an identifier standing for the payload pointer. -/
structure HTEntry where
  hash : Nat
  payload : Nat
  deriving DecidableEq, Repr

/-- The skip loop inside `JoinHashTable::Lookup` (part_005:151-157): starting
from the bucket chain head, advance while the entry is non-null and its hash
differs from the probe hash.  The chain is modeled as the list of entries
reachable through `next` pointers. -/
def lookupSkip (h : Nat) : List HTEntry → List HTEntry
  | [] => []
  | e :: rest => if e.hash ≠ h then lookupSkip h rest else e :: rest

/-- Shallow embedding of `JoinHashTable::Iterator::NextMatch`
(part_005:166-180).  The iterator state is the chain suffix starting at
`next_`; the loop returns the first entry whose hash equals the probe hash
and which satisfies the caller's key-equality predicate, leaving the
iterator just past it; it returns null (`none`) when the chain runs out. -/
def nextMatch (h : Nat) (keyEq : HTEntry → Bool) :
    List HTEntry → Option HTEntry × List HTEntry
  | [] => (none, [])
  | e :: rest =>
    if e.hash = h ∧ keyEq e then (some e, rest) else nextMatch h keyEq rest

/-- The match test applied to one entry: stored hash equals the probe hash
and the caller's key-equality predicate accepts the payload. -/
def entryMatches (h : Nat) (keyEq : HTEntry → Bool) (e : HTEntry) : Bool :=
  decide (e.hash = h) && keyEq e

/-- Repeatedly call `nextMatch`, collecting the produced entries until the
iterator returns null.  `fuel` bounds the number of calls. -/
def iterOutputs (h : Nat) (keyEq : HTEntry → Bool) : Nat → List HTEntry → List HTEntry
  | 0, _ => []
  | fuel + 1, st =>
    match nextMatch h keyEq st with
    | (none, _) => []
    | (some e, st') => e :: iterOutputs h keyEq fuel st'

/-! ## AggregationHashTable (`src/unnamed/part_004`) -/

/-- `util::MathUtil::PowerOf2Floor`: the largest power of two that is at
most `n` (0 for 0).  The utility header is not under src/; this is its
documented meaning used by the constructor. -/
def powerOf2Floor (n : Nat) : Nat :=
  if n = 0 then 0 else 2 ^ Nat.log2 n

/-- `util::BitUtil::CountLeadingZeros` on a 64-bit value: 64 minus the bit
length. -/
def countLeadingZeros64 (n : Nat) : Nat := 64 - n.size

/-- `kDefaultNumPartitions` (256 overflow partitions). -/
def kDefaultNumPartitions : Nat := 256

/-- `part_shift_bits_` as initialized by the constructor
(part_004:22-23): `CountLeadingZeros(u64(kDefaultNumPartitions) - 1)`. -/
def partShiftBits : Nat := countLeadingZeros64 (kDefaultNumPartitions - 1)

/-- The flush-threshold computation from the constructor (part_004:29-35)
carried out over exact rationals: `f32(l2_size) / entry_size * 0.5`
(`kDefaultLoadFactor = 0.5`), rounded by `std::llround`, floored to a power
of two, minimum 256.  Binary32 rounding of the intermediate value is modeled
as exact rational arithmetic; `llround`'s round-half-away-from-zero agrees
with `round` on the non-negative values arising here. -/
def flushThreshold (l2Size entrySize : Nat) : Nat :=
  max 256 (powerOf2Floor (Int.toNat (round ((l2Size : ℚ) / entrySize * (1 / 2)))))

/-- The aggregation-hash-table state the partitioning claim observes: the
entries currently linked in the hash table (insertion order), the overflow
partition lists (head entry first, as built by prepending), the recorded
partition tails, and the constructor-derived constants. -/
structure AggHT where
  elements : List HTEntry
  partHeads : Nat → List HTEntry
  partTails : Nat → Option HTEntry
  flushThresh : Nat
  shiftBits : Nat

/-- A fresh table for the given cache/payload geometry (part_004:14-36). -/
def AggHT.fresh (l2Size entrySize : Nat) : AggHT where
  elements := []
  partHeads := fun _ => []
  partTails := fun _ => none
  flushThresh := flushThreshold l2Size entrySize
  shiftBits := partShiftBits

/-- One drain callback step (part_004:92-99): prepend the entry to
`partition_heads_[hash >> part_shift_bits_]` and record it as the tail if
the partition was empty. -/
def AggHT.drainOne (t : AggHT) (e : HTEntry) : AggHT :=
  let idx := e.hash >>> t.shiftBits
  { t with
    partHeads := fun p => if p = idx then e :: t.partHeads p else t.partHeads p
    partTails := fun p =>
      if p = idx then (match t.partTails p with
        | none => some e
        | some tl => some tl)
      else t.partTails p }

/-- `AggregationHashTable::FlushToOverflowPartitions` (part_004:80-103):
drain every entry out of the hash table into the overflow partitions. -/
def AggHT.flushToOverflowPartitions (t : AggHT) : AggHT :=
  let drained := t.elements.foldl AggHT.drainOne t
  { drained with elements := [] }

/-- `AggregationHashTable::Insert` at the granularity the claim observes
(part_004:54-70): allocate the entry and link it into the table.  The grow
path only resizes the directory; the element list is unchanged by it. -/
def AggHT.insert (t : AggHT) (e : HTEntry) : AggHT :=
  { t with elements := t.elements ++ [e] }

/-- `AggregationHashTable::InsertPartitioned` (part_004:72-78): insert, then
flush to the overflow partitions when the element count has reached the
flush threshold. -/
def AggHT.insertPartitioned (t : AggHT) (e : HTEntry) : AggHT :=
  let t' := t.insert e
  if t'.elements.length ≥ t'.flushThresh then t'.flushToOverflowPartitions else t'

/-! ## AggregationHashTable batch lookup: the FollowNext loop
(`src/unnamed/part_004:214-249`) -/

/-- One probe position of the working set: the hash computed for the input
tuple (`hashes[i]`), the key-equality predicate specialized to that tuple
(`key_eq_fn(·, iters)` with the VPI parked at the position), and the bucket
chain suffix starting at the position's current entry (`entries[i]`; an
empty list is a null entry). -/
structure ProbePos where
  targetHash : Nat
  keyEq : HTEntry → Bool
  chain : List HTEntry

/-- `entries[i]->hash == hashes[i] && key_eq_fn(entries[i]->payload, iters)`. -/
def ProbePos.matchesEntry (p : ProbePos) : Bool :=
  match p.chain with
  | [] => false
  | e :: _ => e.hash = p.targetHash ∧ p.keyEq e

/-- `entries[i]->next != nullptr`. -/
def ProbePos.hasNext (p : ProbePos) : Bool :=
  match p.chain with
  | [] => false
  | _ :: rest => ¬ rest.isEmpty

/-- `entry = entry->next`. -/
def ProbePos.advance (p : ProbePos) : ProbePos :=
  { p with chain := p.chain.tail }

/-- The compaction loop of one `FollowNextLoop` iteration
(part_004:225-235): positions are copied forward exactly when the keys
mismatch and the entry has a non-null next pointer (`write_idx` advances on
`!keys_match && has_next`). -/
def compactKeep : List ProbePos → List ProbePos
  | [] => []
  | p :: ps =>
    if ¬ p.matchesEntry ∧ p.hasNext then p :: compactKeep ps else compactKeep ps

/-- One full iteration of the `while (num_elems > 0)` loop: compact the
working set, then follow the chain one step for every kept position
(part_004:241-244). -/
def followNextStep (ws : List ProbePos) : List ProbePos :=
  (compactKeep ws).map ProbePos.advance

/-- The `FollowNextLoop` driver with explicit fuel: iterate
`followNextStep` while the working set is non-empty. -/
def followNextIter : Nat → List ProbePos → List ProbePos
  | 0, ws => ws
  | fuel + 1, ws => if ws.isEmpty then [] else followNextIter fuel (followNextStep ws)

/-- Termination measure: total chain length plus working-set size. -/
def wsMeasure (ws : List ProbePos) : Nat :=
  (ws.map fun p => p.chain.length).sum + ws.length

/-! ## Sorter (`src/sql/sorter.cpp`)

Tuples are modeled by their payload values; the user comparator
`cmp_fn_(a, b)` is modeled through a key function `key : α → Int` with
`cmp_fn_(a, b) < 0 ↔ key a < key b`, `cmp_fn_(a, b) ≤ 0 ↔ key a ≤ key b` —
every strict-weak-ordering comparator over a finite run of tuples arises
this way from its rank function.  The parallel-sort claims compare value
sequences only, so there the tuples themselves carry a linear order. -/

/-- Sorter state at the granularity the claims observe: the `tuples_`
pointer vector (as the list of the tuples it points at) and the `sorted_`
flag. -/
structure Sorter (α : Type) where
  tuples : List α
  sorted : Bool
  deriving DecidableEq, Repr

/-- Shallow embedding of `Sorter::Sort` (sorter.cpp:100-128): exit if
already sorted; exit if there are no input tuples (without setting the
flag); otherwise sort with the comparator and mark complete.  `ips4o::sort`
is a third-party in-place comparison sort; any such sort produces the same
value sequence (the sorted permutation is unique), modeled canonically by
insertion sort. -/
def Sorter.sortSerial {α : Type} [LinearOrder α] (s : Sorter α) : Sorter α :=
  if s.sorted then s
  else if s.tuples.isEmpty then s
  else { tuples := List.insertionSort (· ≤ ·) s.tuples, sorted := true }

/-- Child selection inside `HeapSiftDown`'s loop (sorter.cpp:79-87): start
with the left child `2*idx + 1` and move to the right child when it exists
and compares larger. -/
def siftChild {α : Type} (key : α → Int) (l : List α) (idx : Nat) (top : α) : Nat :=
  if 2 * idx + 2 < l.length ∧
      key (l.getD (2 * idx + 1) top) < key (l.getD (2 * idx + 2) top) then
    2 * idx + 2
  else 2 * idx + 1

/-- `HeapSiftDown`'s walk (sorter.cpp:72-98) from position `idx` with the
saved scratch value `top`: while the larger child beats `top`, shift that
child's value up; finally store `top` at the resting position.  The
source's `std::swap` leaves a stale value in the vacated slot that is never
read before being overwritten, so shifting values up is the exact same
computation. -/
def siftFrom {α : Type} (key : α → Int) (l : List α) (idx : Nat) (top : α) : List α :=
  if h : 2 * idx + 1 ≥ l.length then l.set idx top
  else if key top ≥ key (l.getD (siftChild key l idx top) top) then l.set idx top
  else
    siftFrom key (l.set idx (l.getD (siftChild key l idx top) top))
      (siftChild key l idx top) top
termination_by l.length - idx
decreasing_by
  simp only [List.length_set]
  unfold siftChild
  split <;> omega

/-- `Sorter::HeapSiftDown` (sorter.cpp:72-98): save the root in `top` and
sift from index 0. -/
def heapSiftDown {α : Type} (key : α → Int) (l : List α) : List α :=
  match l with
  | [] => []
  | x :: _ => siftFrom key l 0 x

/-- `Sorter::BuildHeap` (sorter.cpp:65-70) calls `std::make_heap` with the
comparator.  `std::make_heap` is a standard-library routine whose contract
is "a permutation of the input satisfying the binary max-heap property";
the canonical such permutation — descending order — models it.  Every
claim proved below is invariant under which max-heap permutation is
produced. -/
def buildHeap {α : Type} (key : α → Int) (l : List α) : List α :=
  List.insertionSort (fun a b => key b ≤ key a) l

/-- Shallow embedding of `Sorter::AllocInputTupleTopKFinish`
(sorter.cpp:38-63).  Fewer than k buffered: done.  Exactly k: build the
heap.  Otherwise (k+1 buffered): pop the most recent tuple; if the
comparator says it is at most the heap top (`cmp_fn_(last, top) <= 0`),
replace the top with it and sift down; otherwise discard it.  The fallback
arm is the k = 0 case, where the source reads the front of an empty vector
(undefined behavior). -/
def topKFinish {α : Type} (key : α → Int) (k : Nat) (l : List α) : List α :=
  if l.length < k then l
  else if l.length = k then buildHeap key l
  else
    match l.dropLast, l.getLast? with
    | t :: rest, some last =>
      if key last ≤ key t then heapSiftDown key (last :: rest) else t :: rest
    | _, _ => []

/-- A top-k insertion sequence: each tuple is appended by
`AllocInputTupleTopK` (`push_back`, sorter.cpp:30-36) and immediately
followed by `AllocInputTupleTopKFinish(k)`. -/
def topKRun {α : Type} (key : α → Int) (k : Nat) (xs : List α) : List α :=
  xs.foldl (fun st x => topKFinish key k (st ++ [x])) []

/-- The keys of a tuple list, sorted ascending by the comparator. -/
def sortKeys {α : Type} (key : α → Int) (l : List α) : List Int :=
  List.insertionSort (· ≤ ·) (l.map key)

/-- The binary max-heap property under the comparator: every non-root
position is at most its parent. -/
def IsHeap {α : Type} (key : α → Int) (l : List α) : Prop :=
  ∀ j : Nat, ∀ hj : j < l.length, 0 < j →
    key (l.get ⟨j, hj⟩) ≤ key (l.get ⟨(j - 1) / 2, Nat.lt_of_le_of_lt (by omega) hj⟩)

/-- The heap property away from position `idx`: every non-root position
whose parent is not `idx` is at most its parent.  This is the state of the
array when the sift-down walk is parked at `idx`. -/
def HeapExceptAt {α : Type} (key : α → Int) (idx : Nat) (l : List α) : Prop :=
  ∀ j : Nat, ∀ hj : j < l.length, 0 < j → (j - 1) / 2 ≠ idx →
    key (l.get ⟨j, hj⟩) ≤ key (l.get ⟨(j - 1) / 2, Nat.lt_of_le_of_lt (by omega) hj⟩)

/-- The children of position `idx` are bounded by the value at `idx`'s
parent (relevant only when `idx` is not the root). -/
def ChildrenBounded {α : Type} (key : α → Int) (idx : Nat) (l : List α) : Prop :=
  ∀ j : Nat, ∀ hj : j < l.length, ∀ hpar : (idx - 1) / 2 < l.length,
    0 < idx → (j - 1) / 2 = idx →
    key (l.get ⟨j, hj⟩) ≤ key (l.get ⟨(idx - 1) / 2, hpar⟩)

/-- The sifted scratch value is bounded by the value at `idx`'s parent
(relevant only when `idx` is not the root). -/
def TopBounded {α : Type} (key : α → Int) (idx : Nat) (top : α) (l : List α) : Prop :=
  ∀ hpar : (idx - 1) / 2 < l.length, 0 < idx →
    key top ≤ key (l.get ⟨(idx - 1) / 2, hpar⟩)

/-! ### Parallel sort (`Sorter::SortParallel`, sorter.cpp:146-362) -/

/-- The row of candidate splitter keys for boundary `i`
(sorter.cpp:237-243): from each sorted run take the element at
`(i + 1) * (len / B)` where `B` is the number of runs. -/
def splitterRow {α : Type} [Inhabited α] (runs : List (List α)) (i : Nat) : List α :=
  runs.map fun r => r.getD ((i + 1) * (r.length / runs.length)) default

/-- The median-of-medians splitter for boundary `i` (sorter.cpp:272-277):
sort the row with the comparator and take the middle element at `B / 2`. -/
def medianSplitter {α : Type} [LinearOrder α] [Inhabited α]
    (runs : List (List α)) (i : Nat) : α :=
  (List.insertionSort (· ≤ ·) (splitterRow runs i)).getD (runs.length / 2) default

/-- The splitter keys that actually bound buckets.  There are `B - 1` work
packages (one per splitter row); package `idx` ends at
`upper_bound(splitter idx)` except the last (`idx = B - 2`), which runs to
the end of each run (sorter.cpp:286-290) — so only the first `B - 2`
medians cut the runs. -/
def splitterKeys {α : Type} [LinearOrder α] [Inhabited α]
    (runs : List (List α)) : List α :=
  ((List.range (runs.length - 1)).map (medianSplitter runs)).dropLast

/-- Cut one sorted run at each splitter in turn.  On a run sorted by the
comparator, `std::upper_bound(start, end, s, comp)` is the boundary after
the last element `≤ s`, i.e. the `takeWhile (· ≤ s)` boundary; the next
bucket starts at that position (`next_start`, sorter.cpp:265-299). -/
def bucketize {α : Type} [LinearOrder α] : List α → List α → List (List α)
  | [], xs => [xs]
  | s :: ss, xs => xs.takeWhile (· ≤ s) :: bucketize ss (xs.dropWhile (· ≤ s))

/-- Select the input range with the minimal head element from a non-empty
collection — the `priority_queue` top under `heap_cmp`
(sorter.cpp:317-323); ties are broken arbitrarily by the queue, which is
unobservable in the produced value sequence, so the first minimum is taken.
Returns that range and the remaining ranges. -/
def extractMinRange {α : Type} [LinearOrder α] :
    α × List α → List (α × List α) → (α × List α) × List (α × List α)
  | p, [] => (p, [])
  | p, q :: rest =>
    if p.1 ≤ q.1 then
      let r := extractMinRange p rest
      (r.1, q :: r.2)
    else
      let r := extractMinRange q rest
      (r.1, p :: r.2)

/-- The k-way merge loop of one work package (sorter.cpp:321-333): pop the
range with the minimal head, emit that head, and re-insert the advanced
range if it is non-empty.  `fuel` bounds the number of emitted elements. -/
def kMerge {α : Type} [LinearOrder α] : Nat → List (α × List α) → List α
  | 0, _ => []
  | _ + 1, [] => []
  | fuel + 1, p :: ps =>
    let r := extractMinRange p ps
    r.1.1 :: kMerge fuel (match r.1.2 with
      | [] => r.2
      | y :: ys => (y, ys) :: r.2)

/-- View a non-empty range as (head, tail); empty ranges are never enqueued
(`if (start != end)`, sorter.cpp:292-295). -/
def toRange {α : Type} : List α → Option (α × List α)
  | [] => none
  | x :: xs => some (x, xs)

/-- Total number of elements across ranges. -/
def rangeCount {α : Type} (rs : List (α × List α)) : Nat :=
  (rs.map fun p => p.2.length + 1).sum

/-- The elements covered by a collection of non-empty ranges (head first). -/
def joinRanges {α : Type} (rs : List (α × List α)) : List α :=
  (rs.map fun p => p.1 :: p.2).flatten

/-- Merge one work package's input ranges. -/
def kwayMerge {α : Type} [LinearOrder α] (ranges : List (List α)) : List α :=
  kMerge (rangeCount (ranges.filterMap toRange)) (ranges.filterMap toRange)

/-- Each sorted run cut into its buckets. -/
def runBuckets {α : Type} [LinearOrder α] [Inhabited α]
    (runs : List (List α)) : List (List (List α)) :=
  runs.map (bucketize (splitterKeys runs))

/-- The full parallel-merge output: work package `i` merges bucket `i` of
every run, and the packages write to consecutive destination slices
(prefix-sum write positions, sorter.cpp:259-307), i.e. the outputs are
concatenated in package order. -/
def mergeOutput {α : Type} [LinearOrder α] [Inhabited α]
    (runs : List (List α)) : List α :=
  ((List.range ((splitterKeys runs).length + 1)).map fun i =>
    kwayMerge ((runBuckets runs).map fun bs => bs.getD i [])).flatten

/-- Shallow embedding of `Sorter::SortParallel` (sorter.cpp:146-362) for an
owning sorter and the thread-local sorters collected from the state
container.  `minTuples` is `kDefaultMinTuplesForParallelSort` (its value is
set in the sorter header, outside the distilled sources, and is irrelevant
to the claims).  Empty locals are erased; with none left the owner is
marked sorted; with a single local or few tuples all pointers move into the
owner followed by the serial sort; otherwise each local is serially sorted
and the splitter/merge pipeline fills the owner's (resized, hence
overwritten) pointer vector. -/
def Sorter.sortParallel {α : Type} [LinearOrder α] [Inhabited α] (minTuples : Nat)
    (owner : Sorter α) (locals : List (Sorter α)) : Sorter α :=
  let tl := locals.filter fun s => ¬ s.tuples.isEmpty
  if tl.isEmpty then { owner with sorted := true }
  else
    let numTuples := (tl.map fun s => s.tuples.length).sum
    if tl.length = 1 ∨ numTuples < minTuples then
      Sorter.sortSerial { owner with tuples := owner.tuples ++ (tl.map fun s => s.tuples).flatten }
    else
      { tuples := mergeOutput (tl.map fun s => (Sorter.sortSerial s).tuples), sorted := true }

/-! ## Supporting lemmas -/

theorem compactKeep_eq_filter (ws : List ProbePos) :
    compactKeep ws = ws.filter fun p => !p.matchesEntry && p.hasNext := by
  induction ws with
  | nil => rfl
  | cons p ps ih =>
    by_cases hm : p.matchesEntry
    · simp [compactKeep, hm, List.filter_cons, ih]
    · by_cases hn : p.hasNext
      · simp [compactKeep, hm, hn, List.filter_cons, ih]
      · simp [compactKeep, hm, hn, List.filter_cons, ih]

theorem sum_pred_add_length (l : List ProbePos)
    (h : ∀ p ∈ l, 1 ≤ p.chain.length) :
    ((l.map fun p => p.chain.length - 1).sum + l.length
      = (l.map fun p => p.chain.length).sum) := by
  induction l with
  | nil => simp
  | cons p ps ih =>
    have hp := h p (List.mem_cons_self p ps)
    have hps := ih fun q hq => h q (List.mem_cons_of_mem p hq)
    simp only [List.map_cons, List.sum_cons, List.length_cons]
    omega

theorem sublist_sum_le {l₁ l₂ : List Nat} (h : List.Sublist l₁ l₂) : l₁.sum ≤ l₂.sum := by
  induction h with
  | slnil => simp
  | cons a _ ih => simp only [List.sum_cons]; omega
  | cons₂ a _ ih => simp only [List.sum_cons]; omega

theorem wsMeasure_step_lt (ws : List ProbePos) (hne : ws ≠ []) :
    wsMeasure (followNextStep ws) < wsMeasure ws := by
  have hkept : ∀ p ∈ compactKeep ws, 1 ≤ p.chain.length := by
    intro p hp
    rw [compactKeep_eq_filter] at hp
    have h2 := (List.mem_filter.mp hp).2
    simp only [Bool.and_eq_true] at h2
    have hnx := h2.2
    unfold ProbePos.hasNext at hnx
    match hc : p.chain with
    | [] => rw [hc] at hnx; simp at hnx
    | x :: rest => simp [hc]
  have hsub : List.Sublist ((compactKeep ws).map fun p => p.chain.length)
      (ws.map fun p => p.chain.length) := by
    rw [compactKeep_eq_filter]
    exact (List.filter_sublist ws).map _
  have hstep : wsMeasure (followNextStep ws) =
      ((compactKeep ws).map fun p => p.chain.length - 1).sum + (compactKeep ws).length := by
    unfold wsMeasure followNextStep
    simp [Function.comp_def, ProbePos.advance, List.length_tail]
  rw [hstep, sum_pred_add_length _ hkept]
  have hle := sublist_sum_le hsub
  have hlen : 1 ≤ ws.length := by
    cases ws with
    | nil => exact absurd rfl hne
    | cons a l => simp
  unfold wsMeasure
  omega

theorem followNextIter_empty (fuel : Nat) :
    ∀ ws : List ProbePos, wsMeasure ws ≤ fuel → followNextIter fuel ws = [] := by
  induction fuel with
  | zero =>
    intro ws hm
    have : ws.length = 0 := by unfold wsMeasure at hm; omega
    rw [List.length_eq_zero] at this
    simp [this, followNextIter]
  | succ n ih =>
    intro ws hm
    by_cases hws : ws = []
    · simp [hws, followNextIter]
    · have hlt := wsMeasure_step_lt ws hws
      unfold followNextIter
      rw [if_neg (by simpa using hws)]
      exact ih _ (by omega)

theorem lookupSkip_filter_eq (h : Nat) (keyEq : HTEntry → Bool) (chain : List HTEntry) :
    (lookupSkip h chain).filter (entryMatches h keyEq)
      = chain.filter (entryMatches h keyEq) := by
  induction chain with
  | nil => rfl
  | cons e rest ih =>
    by_cases he : e.hash = h
    · simp [lookupSkip, he]
    · have hm : entryMatches h keyEq e = false := by
        simp [entryMatches, he]
      simp [lookupSkip, he, List.filter_cons, hm, ih]

theorem lookupSkip_length_le (h : Nat) (chain : List HTEntry) :
    (lookupSkip h chain).length ≤ chain.length := by
  induction chain with
  | nil => simp [lookupSkip]
  | cons e rest ih =>
    by_cases he : e.hash = h
    · simp [lookupSkip, he]
    · simp only [lookupSkip, he, ne_eq, not_false_iff, if_true, List.length_cons]
      omega

theorem entryMatches_false_of_not (h : Nat) (keyEq : HTEntry → Bool) (e : HTEntry)
    (hm : ¬ (e.hash = h ∧ keyEq e = true)) : entryMatches h keyEq e = false := by
  unfold entryMatches
  rcases Bool.eq_false_or_eq_true (keyEq e) with hk | hk
  · have h1 : ¬ e.hash = h := fun hh => hm ⟨hh, hk⟩
    simp [h1]
  · simp [hk]

theorem nextMatch_none_iff (h : Nat) (keyEq : HTEntry → Bool) (st : List HTEntry) :
    (nextMatch h keyEq st).1 = none ↔ st.filter (entryMatches h keyEq) = [] := by
  induction st with
  | nil => simp [nextMatch]
  | cons e rest ih =>
    by_cases hm : e.hash = h ∧ keyEq e = true
    · have : entryMatches h keyEq e = true := by
        simp [entryMatches, hm.1, hm.2]
      simp [nextMatch, hm, List.filter_cons, this]
    · have hme := entryMatches_false_of_not h keyEq e hm
      simp [nextMatch, hm, List.filter_cons, hme, ih]

theorem iterOutputs_eq_filter (h : Nat) (keyEq : HTEntry → Bool) :
    ∀ (st : List HTEntry) (fuel : Nat), st.length ≤ fuel →
      iterOutputs h keyEq fuel st = st.filter (entryMatches h keyEq) := by
  intro st
  induction st with
  | nil =>
    intro fuel _
    cases fuel with
    | zero => rfl
    | succ n => simp [iterOutputs, nextMatch]
  | cons e rest ih =>
    intro fuel hf
    cases fuel with
    | zero => simp at hf
    | succ n =>
      by_cases hm : e.hash = h ∧ keyEq e = true
      · have hme : entryMatches h keyEq e = true := by
          simp [entryMatches, hm.1, hm.2]
        have hnm : nextMatch h keyEq (e :: rest) = (some e, rest) := by
          simp [nextMatch, hm]
        simp only [iterOutputs, hnm, List.filter_cons, hme, if_pos rfl]
        rw [ih n (by simpa using hf)]
        simp
      · have hme := entryMatches_false_of_not h keyEq e hm
        have hnm : nextMatch h keyEq (e :: rest) = nextMatch h keyEq rest := by
          simp [nextMatch, hm]
        have hstep : iterOutputs h keyEq (n + 1) (e :: rest)
            = iterOutputs h keyEq (n + 1) rest := by
          simp only [iterOutputs, hnm]
        rw [hstep, ih (n + 1) (by simp at hf ⊢; omega)]
        simp [List.filter_cons, hme]

/-! Drain-to-partition lemmas (`AggregationHashTable::FlushToOverflowPartitions`). -/

theorem drainOne_shiftBits (t : AggHT) (e : HTEntry) :
    (t.drainOne e).shiftBits = t.shiftBits := rfl

theorem foldl_drainOne_shiftBits (es : List HTEntry) (t : AggHT) :
    (es.foldl AggHT.drainOne t).shiftBits = t.shiftBits := by
  induction es generalizing t with
  | nil => rfl
  | cons e rest ih => simp [List.foldl_cons, ih, drainOne_shiftBits]

theorem drainOne_heads (t : AggHT) (e : HTEntry) (p : Nat) :
    (t.drainOne e).partHeads p
      = if p = e.hash >>> t.shiftBits then e :: t.partHeads p else t.partHeads p := by
  simp [AggHT.drainOne]

theorem foldl_drainOne_heads (es : List HTEntry) (t : AggHT) (p : Nat) :
    (es.foldl AggHT.drainOne t).partHeads p
      = (es.filter fun e => decide (e.hash >>> t.shiftBits = p)).reverse
          ++ t.partHeads p := by
  induction es generalizing t with
  | nil => simp
  | cons e rest ih =>
    simp only [List.foldl_cons, List.filter_cons]
    rw [ih]
    simp only [drainOne_shiftBits]
    by_cases hp : e.hash >>> t.shiftBits = p
    · rw [if_pos (by simpa using hp), List.reverse_cons, List.append_assoc]
      rw [drainOne_heads, if_pos hp.symm]
      simp
    · rw [if_neg (by simpa using hp)]
      rw [drainOne_heads, if_neg (fun hq => hp hq.symm)]

theorem drainOne_tails (t : AggHT) (e : HTEntry) (p : Nat) :
    (t.drainOne e).partTails p
      = if p = e.hash >>> t.shiftBits then
          (match t.partTails p with
            | none => some e
            | some tl => some tl)
        else t.partTails p := by
  simp [AggHT.drainOne]

theorem drainOne_tails_inv (t : AggHT) (e : HTEntry)
    (hinv : ∀ p, t.partTails p = (t.partHeads p).getLast?) :
    ∀ p, (t.drainOne e).partTails p = ((t.drainOne e).partHeads p).getLast? := by
  intro p
  rw [drainOne_tails, drainOne_heads]
  by_cases hp : p = e.hash >>> t.shiftBits
  · rw [if_pos hp, if_pos hp]
    cases hh : t.partHeads p with
    | nil =>
      have h0 := hinv p
      rw [hh] at h0
      simp at h0
      simp [h0]
    | cons x xs =>
      have h0 := hinv p
      rw [hh] at h0
      rw [h0, List.getLast?_cons_cons]
      cases hxl : (x :: xs).getLast? with
      | none => simp at hxl
      | some tl => simp
  · rw [if_neg hp, if_neg hp]
    exact hinv p

theorem foldl_drainOne_tails (es : List HTEntry) (t : AggHT)
    (hinv : ∀ p, t.partTails p = (t.partHeads p).getLast?) :
    ∀ p, (es.foldl AggHT.drainOne t).partTails p
      = ((es.foldl AggHT.drainOne t).partHeads p).getLast? := by
  induction es generalizing t with
  | nil => exact hinv
  | cons e rest ih =>
    simp only [List.foldl_cons]
    exact ih _ (drainOne_tails_inv t e hinv)

/-! ## Claim theorems -/

/-- C3: for every comparison operator, input (vector or non-NULL constant),
pointer gather function, and input tuple-id list, the gather+select
operation keeps a tuple id exactly when it was live, its input value is
non-NULL, and the comparison of the dereferenced value against the input
holds; a NULL constant input empties the list. -/
theorem C3_gather_select {α : Type} (op : α → α → Bool) (input : Nat → α)
    (nullMask : Nat → Bool) (gathered : Nat → α) (tidList : List Nat) (c : α) :
    (∀ t, t ∈ gatherSelectVector op input nullMask gathered tidList
        ↔ t ∈ tidList ∧ nullMask t = false ∧ op (gathered t) (input t) = true)
    ∧ gatherSelectConstant op true c gathered tidList = []
    ∧ (∀ t, t ∈ gatherSelectConstant op false c gathered tidList
        ↔ t ∈ tidList ∧ op (gathered t) c = true) := by
  refine ⟨?_, rfl, ?_⟩
  · intro t
    simp only [gatherSelectVector, tidFilter, tidDifference, List.mem_filter,
      decide_eq_true_eq, Bool.not_eq_true, and_assoc]
  · intro t
    simp [gatherSelectConstant, tidFilter, List.mem_filter]

/-- C5: the FollowNext loop of the batch lookup terminates with an empty
working set — a number of iterations bounded by the total chain length plus
the working-set size empties it — and one compaction pass keeps a position
exactly when its current entry mismatches (hash or key) and has a non-null
next pointer, after which the kept positions advance one step along their
chains. -/
theorem C5_follow_next (ws : List ProbePos) :
    followNextIter (wsMeasure ws) ws = []
    ∧ (∀ p, p ∈ compactKeep ws ↔ p ∈ ws ∧ p.matchesEntry = false ∧ p.hasNext = true)
    ∧ followNextStep ws = (compactKeep ws).map ProbePos.advance := by
  refine ⟨followNextIter_empty _ ws le_rfl, ?_, rfl⟩
  intro p
  rw [compactKeep_eq_filter]
  simp [List.mem_filter]

/-- C6: starting from `Lookup(h)` (which skips the chain head to the first
hash match), repeated `NextMatch` calls produce exactly the chain entries
whose stored hash equals the probe hash and which satisfy the caller's
key-equality predicate — in chain order, without repetition (the output is
a sublist of the chain) — and `NextMatch` returns null exactly when no
matching entry remains. -/
theorem C6_lookup_iterator (chain : List HTEntry) (h : Nat) (keyEq : HTEntry → Bool) :
    iterOutputs h keyEq chain.length (lookupSkip h chain)
        = chain.filter (entryMatches h keyEq)
    ∧ List.Sublist (iterOutputs h keyEq chain.length (lookupSkip h chain)) chain
    ∧ (∀ e ∈ iterOutputs h keyEq chain.length (lookupSkip h chain),
        e.hash = h ∧ keyEq e = true)
    ∧ (∀ st : List HTEntry,
        ((nextMatch h keyEq st).1 = none ↔ st.filter (entryMatches h keyEq) = [])) := by
  have hout : iterOutputs h keyEq chain.length (lookupSkip h chain)
      = chain.filter (entryMatches h keyEq) := by
    rw [iterOutputs_eq_filter h keyEq _ _ (lookupSkip_length_le h chain)]
    exact lookupSkip_filter_eq h keyEq chain
  refine ⟨hout, ?_, ?_, fun st => nextMatch_none_iff h keyEq st⟩
  · rw [hout]; exact List.filter_sublist chain
  · intro e he
    rw [hout] at he
    have := List.of_mem_filter he
    simpa [entryMatches] using this

/-- C7 counterexample: the claim "no new entry is added to the table by
AllocInputTuple after Build() has completed" is false — after `Build()` the
table reports `is_built`, yet a subsequent `AllocInputTuple` call grows the
element count from 0 to 1. -/
theorem C7_counterexample :
    (JoinHT.run [.build]).built = true
    ∧ (JoinHT.run [.build, .alloc 0]).numElems = (JoinHT.run [.build]).numElems + 1 := by
  decide

/-- C7 as amended: the `is_built` flag is monotonic — false on the fresh
table, set by `Build()`, and never cleared by any later operation — but
insertion is not disabled after build: `AllocInputTuple` unconditionally
allocates and links a new entry, growing the count and leaving the flag
untouched; the no-insertions-after-build rule is a caller obligation the
code does not enforce. -/
theorem C7_amended :
    JoinHT.fresh.built = false
    ∧ (∀ (st : JoinHT) (op : JoinHTOp), st.built = true → (st.applyOp op).built = true)
    ∧ (∀ (st : JoinHT) (h : Nat),
        (st.allocInputTuple h).numElems = st.numElems + 1
        ∧ (st.allocInputTuple h).built = st.built
        ∧ (st.allocInputTuple h).entryHashes = h :: st.entryHashes) := by
  refine ⟨rfl, ?_, ?_⟩
  · intro st op hb
    cases op with
    | alloc h => simpa [JoinHT.applyOp, JoinHT.allocInputTuple] using hb
    | build => simp [JoinHT.applyOp, JoinHT.build, hb]
  · intro st h
    exact ⟨rfl, rfl, rfl⟩

/-- C7 witness: the amended monotonicity applied at a concrete built
table. -/
theorem C7_amended_witness :
    ((⟨[], 0, true⟩ : JoinHT).applyOp (.alloc 5)).built = true :=
  C7_amended.2.1 ⟨[], 0, true⟩ (.alloc 5) rfl

/-- C8: the claim says a CompactStorageWrite call whose four arguments have
the expected types (storage pointer, NULL-indicator pointer, 32-bit index,
matching SQL value) checks cleanly.  The code disagrees: because the
"third argument" test re-reads argument index 1 — just constrained to be a
pointer, hence never the required Int32 — every such well-typed call is
reported as an incorrect call argument at index 1 and the return type is
never set. -/
theorem C8_code_bug (b : CSWBuiltin) (args : List TyKind)
    (hlen : args.length = 4)
    (h0 : (args.getD 0 .otherTy).isPointer = true)
    (h1 : (args.getD 1 .otherTy).isPointer = true)
    (h2 : args.getD 2 .otherTy = .int32Ty)
    (h3 : args.getD 3 .otherTy = b.expectedInput) :
    checkCompactStorageWrite b args = .errArg 1
    ∧ ∀ r, checkCompactStorageWrite b args ≠ .ok r := by
  have hnotint : ¬ (args.getD 1 .otherTy = .int32Ty) := by
    intro hq
    rw [hq] at h1
    simp [TyKind.isPointer] at h1
  constructor
  · unfold checkCompactStorageWrite
    rw [if_neg (by omega), if_neg (not_not_intro h0), if_neg (not_not_intro h1),
      if_pos hnotint]
  · intro r hr
    unfold checkCompactStorageWrite at hr
    rw [if_neg (by omega), if_neg (not_not_intro h0), if_neg (not_not_intro h1),
      if_pos hnotint] at hr
    exact CheckResult.noConfusion hr

/-- C8 witness: the failing input — `@compactStorageWriteInteger` with
argument types `(*T, *bool, int32, Integer)` — is diagnosed at index 1. -/
theorem C8_code_bug_witness :
    checkCompactStorageWrite .writeInteger [.pointer, .pointer, .int32Ty, .integerTy]
      = .errArg 1 :=
  (C8_code_bug .writeInteger [.pointer, .pointer, .int32Ty, .integerTy]
    (by decide) (by decide) (by decide) (by decide) (by decide)).1

/-- C9 counterexample: an invocation that hits a compilation error still
exits with code 0, not the claimed 2. -/
theorem C9_counterexample :
    mainExitCode 2 .compileError = 0 ∧ mainExitCode 2 .compileError ≠ 2 := by
  decide

/-- C9 as amended: the host binary's exit code is 0 for every argument
count and every run outcome — argument, compilation, and runtime errors
are logged but never reflected in the process exit code. -/
theorem C9_amended : ∀ (argc : Nat) (outcome : RunResult), mainExitCode argc outcome = 0 := by
  intro argc outcome
  unfold mainExitCode
  split
  · rfl
  · split <;> rfl

/-- C4: the flush threshold computed by the constructor is
`max(256, PowerOf2Floor(L2_bytes / entry_size * load_factor))`; the
partition shift is 56, so `hash >> shift` is the high byte of the 64-bit
hash (a partition index below 256); whenever `InsertPartitioned` brings the
element count to the threshold, the whole table is flushed: afterwards no
entry remains in the table, each drained entry is prepended to the overflow
partition list at index `hash >> shift`, and the recorded partition tail
remains the last element of each partition list (the anchor for O(1)
concatenation). -/
theorem C4_agg_partition_flush (l2Size entrySize : Nat) :
    (AggHT.fresh l2Size entrySize).flushThresh
        = max 256 (powerOf2Floor (Int.toNat (round ((l2Size : ℚ) / entrySize * (1 / 2)))))
    ∧ (AggHT.fresh l2Size entrySize).shiftBits = 56
    ∧ (∀ h : Nat, h < 2 ^ 64 → h >>> 56 = h / 2 ^ 56 ∧ h >>> 56 < 256)
    ∧ (∀ (t : AggHT) (e : HTEntry),
        (t.insert e).elements.length ≥ t.flushThresh →
          t.insertPartitioned e = (t.insert e).flushToOverflowPartitions
          ∧ (t.insertPartitioned e).elements = [])
    ∧ (∀ (t : AggHT) (p : Nat),
        (t.flushToOverflowPartitions).partHeads p
          = (t.elements.filter fun e => decide (e.hash >>> t.shiftBits = p)).reverse
              ++ t.partHeads p)
    ∧ (∀ t : AggHT, (∀ p, t.partTails p = (t.partHeads p).getLast?) →
        ∀ p, (t.flushToOverflowPartitions).partTails p
          = ((t.flushToOverflowPartitions).partHeads p).getLast?) := by
  refine ⟨rfl, ?_, ?_, ?_, ?_, ?_⟩
  · show partShiftBits = 56
    have hsz : Nat.size 255 = 8 := by
      refine le_antisymm (Nat.size_le.mpr (by norm_num)) ?_
      have h7 := Nat.lt_size.mpr (show 2 ^ 7 ≤ 255 by norm_num)
      omega
    show 64 - Nat.size (256 - 1) = 56
    norm_num [hsz]
  · intro h hlt
    constructor
    · exact Nat.shiftRight_eq_div_pow h 56
    · rw [Nat.shiftRight_eq_div_pow]
      have h2 : 0 < 2 ^ 56 := Nat.pos_pow_of_pos 56 (by norm_num)
      rw [Nat.div_lt_iff_lt_mul h2]
      calc h < 2 ^ 64 := hlt
        _ = 256 * 2 ^ 56 := by norm_num
  · intro t e hge
    have hge' : (t.insert e).elements.length ≥ (t.insert e).flushThresh := hge
    have heq : t.insertPartitioned e = (t.insert e).flushToOverflowPartitions := by
      show (if (t.insert e).elements.length ≥ (t.insert e).flushThresh then
          (t.insert e).flushToOverflowPartitions else t.insert e)
        = (t.insert e).flushToOverflowPartitions
      rw [if_pos hge']
    exact ⟨heq, by rw [heq]; rfl⟩
  · intro t p
    show (t.elements.foldl AggHT.drainOne t).partHeads p = _
    exact foldl_drainOne_heads t.elements t p
  · intro t hinv p
    show (t.elements.foldl AggHT.drainOne t).partTails p
        = ((t.elements.foldl AggHT.drainOne t).partHeads p).getLast?
    exact foldl_drainOne_tails t.elements t hinv p

/-- C4 witness: the hypothesis-bearing conjuncts applied at concrete
inputs — a 60-bit hash, and a table with flush threshold 1 receiving its
first partitioned insert. -/
theorem C4_agg_partition_flush_witness :
    ((2 ^ 60 : Nat) >>> 56 = 2 ^ 60 / 2 ^ 56 ∧ (2 ^ 60 : Nat) >>> 56 < 256)
    ∧ ((⟨[], fun _ => [], fun _ => none, 1, 56⟩ : AggHT).insertPartitioned ⟨7, 0⟩
        = ((⟨[], fun _ => [], fun _ => none, 1, 56⟩ : AggHT).insert
            ⟨7, 0⟩).flushToOverflowPartitions)
    ∧ ((⟨[], fun _ => [], fun _ => none, 1, 56⟩ : AggHT).flushToOverflowPartitions).partTails 0
        = (((⟨[], fun _ => [], fun _ => none, 1, 56⟩ :
            AggHT).flushToOverflowPartitions).partHeads 0).getLast? :=
  ⟨(C4_agg_partition_flush 0 1).2.2.1 (2 ^ 60) (by norm_num),
   ((C4_agg_partition_flush 0 1).2.2.2.1 ⟨[], fun _ => [], fun _ => none, 1, 56⟩
      ⟨7, 0⟩ (by decide)).1,
   (C4_agg_partition_flush 0 1).2.2.2.2.2 ⟨[], fun _ => [], fun _ => none, 1, 56⟩
      (fun _ => rfl) 0⟩

/-- C10: serial `Sort()` on a sorter with zero buffered tuples returns
immediately without setting the sorted flag (`IsSorted()` stays false),
whereas `SortParallel` over thread-local sorters that are all empty marks
the owning sorter sorted and leaves it empty. -/
theorem C10_empty_sorters {α : Type} [LinearOrder α] [Inhabited α] :
    (∀ s : Sorter α, s.tuples = [] → s.sorted = false →
      s.sortSerial = s ∧ s.sortSerial.sorted = false)
    ∧ (∀ (minTuples : Nat) (owner : Sorter α) (locals : List (Sorter α)),
        owner.tuples = [] → (∀ s ∈ locals, s.tuples = []) →
        Sorter.sortParallel minTuples owner locals = ⟨[], true⟩) := by
  constructor
  · intro s ht hs
    have hid : s.sortSerial = s := by
      unfold Sorter.sortSerial
      rw [if_neg (by simp [hs]), if_pos (by simp [ht])]
    exact ⟨hid, by rw [hid, hs]⟩
  · intro minTuples owner locals howner hlocals
    unfold Sorter.sortParallel
    have hfilter : (locals.filter fun s => ¬ s.tuples.isEmpty) = [] := by
      rw [List.filter_eq_nil_iff]
      intro s hs
      simp [hlocals s hs]
    rw [hfilter]
    simp [howner]

/-- C10 witness: the two parts applied at concrete empty sorters. -/
theorem C10_empty_sorters_witness :
    ((⟨[], false⟩ : Sorter Int).sortSerial = ⟨[], false⟩)
    ∧ Sorter.sortParallel 100 (⟨[], false⟩ : Sorter Int) [⟨[], false⟩, ⟨[], true⟩]
        = ⟨[], true⟩ :=
  ⟨((@C10_empty_sorters Int _ _).1 ⟨[], false⟩ rfl rfl).1,
   (@C10_empty_sorters Int _ _).2 100 ⟨[], false⟩ [⟨[], false⟩, ⟨[], true⟩] rfl
     (by intro s hs; simp at hs; rcases hs with h | h <;> rw [h])⟩

/-! Heap lemmas for the top-k claim. -/

theorem getD_eq_get_of_lt {α : Type} (l : List α) (i : Nat) (d : α) (h : i < l.length) :
    l.getD i d = l.get ⟨i, h⟩ := by
  rw [List.getD_eq_getElem l d h]
  simp [List.get_eq_getElem]

theorem get_set_eq_ite {α : Type} (l : List α) (i j : Nat) (a : α)
    (hj : j < (l.set i a).length) :
    (l.set i a).get ⟨j, hj⟩
      = if i = j then a else l.get ⟨j, by simpa using hj⟩ := by
  simp only [List.get_eq_getElem, List.getElem_set]

theorem siftChild_lt {α : Type} (key : α → Int) (l : List α) (idx : Nat) (top : α)
    (h : 2 * idx + 1 < l.length) : siftChild key l idx top < l.length := by
  unfold siftChild
  split <;> omega

theorem siftChild_gt {α : Type} (key : α → Int) (l : List α) (idx : Nat) (top : α) :
    idx < siftChild key l idx top := by
  unfold siftChild
  split <;> omega

theorem siftChild_parent {α : Type} (key : α → Int) (l : List α) (idx : Nat) (top : α) :
    (siftChild key l idx top - 1) / 2 = idx := by
  unfold siftChild
  split <;> omega

theorem siftChild_max {α : Type} (key : α → Int) (l : List α) (idx : Nat) (top : α)
    (hlen : 2 * idx + 1 < l.length) :
    ∀ j : Nat, ∀ hj : j < l.length, (j - 1) / 2 = idx → 0 < j →
      key (l.get ⟨j, hj⟩) ≤ key (l.getD (siftChild key l idx top) top) := by
  intro j hj hpar hj0
  have hj12 : j = 2 * idx + 1 ∨ j = 2 * idx + 2 := by omega
  unfold siftChild
  split
  · rename_i hcond
    have h2 : 2 * idx + 2 < l.length := hcond.1
    have hlt := hcond.2
    rw [getD_eq_get_of_lt l _ top hlen, getD_eq_get_of_lt l _ top h2] at hlt
    rw [getD_eq_get_of_lt l _ top h2]
    rcases hj12 with hj1 | hj2
    · subst hj1
      exact le_of_lt hlt
    · subst hj2
      exact le_refl _
  · rename_i hcond
    rw [getD_eq_get_of_lt l _ top hlen]
    rcases hj12 with hj1 | hj2
    · subst hj1
      exact le_refl _
    · subst hj2
      have h2 : 2 * idx + 2 < l.length := hj
      have hnlt : ¬ key (l.getD (2 * idx + 1) top) < key (l.getD (2 * idx + 2) top) :=
        fun hl => hcond ⟨h2, hl⟩
      rw [getD_eq_get_of_lt l _ top hlen, getD_eq_get_of_lt l _ top h2] at hnlt
      omega

theorem siftFrom_length {α : Type} (key : α → Int) (l : List α) (idx : Nat) (top : α) :
    (siftFrom key l idx top).length = l.length := by
  induction l, idx, top using siftFrom.induct key with
  | case1 l idx top h =>
    rw [siftFrom, dif_pos h]
    exact List.length_set l idx top
  | case2 l idx top h hbrk =>
    rw [siftFrom, dif_neg h, if_pos hbrk]
    exact List.length_set l idx top
  | case3 l idx top h hnbrk ih =>
    rw [siftFrom, dif_neg h, if_neg hnbrk]
    rw [ih]
    exact List.length_set ..

theorem set_perm_cons_eraseIdx {α : Type} :
    ∀ (l : List α) (i : Nat) (a : α), i < l.length →
      List.Perm (l.set i a) (a :: l.eraseIdx i)
  | x :: xs, 0, a, _ => by simp
  | x :: xs, i + 1, a, h => by
    simp only [List.set_cons_succ, List.eraseIdx_cons_succ]
    exact ((set_perm_cons_eraseIdx xs i a (by simpa using h)).cons x).trans
      (List.Perm.swap a x _)

theorem set_set_perm {α : Type} [DecidableEq α] (l : List α) (i j : Nat) (x : α)
    (hi : i < l.length) (hj : j < l.length) (hne : i ≠ j) :
    List.Perm ((l.set i (l.getD j x)).set j x) (l.set i x) := by
  rw [List.perm_iff_count]
  intro b
  have hj' : j < (l.set i (l.getD j x)).length := by simpa using hj
  rw [List.count_set _ _ _ _ hj', List.count_set _ _ _ _ hi, List.count_set _ _ _ _ hi]
  have hgetj : (l.set i (l.getD j x))[j] = l[j] := List.getElem_set_ne hne hj'
  have hgd : l.getD j x = l[j] := List.getD_eq_getElem _ _ hj
  rw [hgetj, hgd]
  have hcnt : (l[i] = b) → 1 ≤ l.count b := by
    intro hb
    have : b ∈ l := hb ▸ List.getElem_mem hi
    exact List.count_pos_iff.mpr this
  by_cases h1 : l[i] = b <;> by_cases h2 : l[j] = b <;>
    simp only [h1, h2, beq_iff_eq, if_true, if_false, beq_self_eq_true] <;>
    first
      | (have hc := hcnt h1; omega)
      | omega

theorem siftFrom_perm {α : Type} [DecidableEq α] (key : α → Int) :
    ∀ (l : List α) (idx : Nat) (top : α), idx < l.length →
      List.Perm (siftFrom key l idx top) (l.set idx top) := by
  intro l idx top
  induction l, idx, top using siftFrom.induct key with
  | case1 l idx top h =>
    intro _
    rw [siftFrom, dif_pos h]
  | case2 l idx top h hbrk =>
    intro _
    rw [siftFrom, dif_neg h, if_pos hbrk]
  | case3 l idx top h hnbrk ih =>
    intro hidx
    rw [siftFrom, dif_neg h, if_neg hnbrk]
    have hch_lt : siftChild key l idx top < l.length :=
      siftChild_lt key l idx top (by omega)
    have hch_gt := siftChild_gt key l idx top
    have hperm1 := ih (by simpa using hch_lt)
    exact hperm1.trans (set_set_perm l idx (siftChild key l idx top) top hidx hch_lt
      (by omega))

theorem siftFrom_heap {α : Type} (key : α → Int) :
    ∀ (l : List α) (idx : Nat) (top : α), idx < l.length →
      HeapExceptAt key idx l → ChildrenBounded key idx l → TopBounded key idx top l →
      IsHeap key (siftFrom key l idx top) := by
  intro l idx top
  induction l, idx, top using siftFrom.induct key with
  | case1 l idx top h =>
    intro hidx HEA _ TB
    rw [siftFrom, dif_pos h]
    intro j hj hj0
    have hjl : j < l.length := by simpa using hj
    rw [get_set_eq_ite, get_set_eq_ite]
    by_cases hji : idx = j
    · subst hji
      rw [if_pos rfl, if_neg (by omega)]
      exact TB (by omega) (by omega)
    · rw [if_neg hji]
      by_cases hpi : idx = (j - 1) / 2
      · omega
      · rw [if_neg hpi]
        exact HEA j hjl hj0 (fun hq => hpi hq.symm)
  | case2 l idx top h hbrk =>
    intro hidx HEA _ TB
    rw [siftFrom, dif_neg h, if_pos hbrk]
    intro j hj hj0
    have hjl : j < l.length := by simpa using hj
    rw [get_set_eq_ite, get_set_eq_ite]
    by_cases hji : idx = j
    · subst hji
      rw [if_pos rfl, if_neg (by omega)]
      exact TB (by omega) (by omega)
    · rw [if_neg hji]
      by_cases hpi : idx = (j - 1) / 2
      · rw [if_pos hpi]
        exact le_trans (siftChild_max key l idx top (by omega) j hjl hpi.symm hj0) hbrk
      · rw [if_neg hpi]
        exact HEA j hjl hj0 (fun hq => hpi hq.symm)
  | case3 l idx top h hnbrk ih =>
    intro hidx HEA CB TB
    rw [siftFrom, dif_neg h, if_neg hnbrk]
    have hch_lt : siftChild key l idx top < l.length :=
      siftChild_lt key l idx top (by omega)
    have hch_gt : idx < siftChild key l idx top := siftChild_gt key l idx top
    have hch_par : (siftChild key l idx top - 1) / 2 = idx :=
      siftChild_parent key l idx top
    have hcval : l.getD (siftChild key l idx top) top
        = l.get ⟨siftChild key l idx top, hch_lt⟩ :=
      getD_eq_get_of_lt l _ top hch_lt
    have hkval : key (l.getD (siftChild key l idx top) top)
        = key (l.get ⟨siftChild key l idx top, hch_lt⟩) := congrArg key hcval
    apply ih (by simpa using hch_lt)
    · -- HeapExceptAt at the child position after the shift-up write
      intro j hj hj0 hne
      have hjl : j < l.length := by simpa using hj
      rw [get_set_eq_ite, get_set_eq_ite]
      by_cases hji : idx = j
      · subst hji
        rw [if_pos rfl]
        rw [if_neg (by omega)]
        -- shifted-up child value against idx's old parent: ChildrenBounded
        rw [hkval]
        exact CB (siftChild key l idx top) hch_lt (by omega) (by omega) hch_par
      · rw [if_neg hji]
        by_cases hpi : idx = (j - 1) / 2
        · rw [if_pos hpi]
          -- j is a child of idx: bounded by the selected (max) child value
          exact siftChild_max key l idx top (by omega) j hjl hpi.symm hj0
        · rw [if_neg hpi]
          exact HEA j hjl hj0 (fun hq => hpi hq.symm)
    · -- ChildrenBounded at the child position
      intro j hj hpar hch0 hpj
      have hjl : j < l.length := by simpa using hj
      rw [get_set_eq_ite, get_set_eq_ite]
      rw [if_neg (by omega), if_pos (by omega)]
      -- grandchild j of idx via the chain: parent of j is the child, not idx
      have hHEA := HEA j hjl (by omega) (by omega)
      -- transport the parent index (j-1)/2 to the child index
      simp only [hpj] at hHEA
      rw [hkval]
      exact hHEA
    · -- TopBounded at the child position
      intro hpar hch0
      rw [get_set_eq_ite, if_pos (by omega)]
      omega

theorem isHeap_le_root {α : Type} (key : α → Int) (l : List α) (hh : IsHeap key l) :
    ∀ j : Nat, ∀ hj : j < l.length,
      key (l.get ⟨j, hj⟩) ≤ key (l.get ⟨0, Nat.lt_of_le_of_lt (Nat.zero_le _) hj⟩) := by
  intro j
  induction j using Nat.strong_induction_on with
  | _ j ih =>
    intro hj
    by_cases hj0 : 0 < j
    · exact le_trans (hh j hj hj0)
        (ih ((j - 1) / 2) (by omega) (Nat.lt_of_le_of_lt (by omega) hj))
    · have hj' : j = 0 := by omega
      subst hj'
      exact le_refl _

theorem isHeap_head_max {α : Type} (key : α → Int) (t : α) (rest : List α)
    (hh : IsHeap key (t :: rest)) : ∀ x ∈ rest, key x ≤ key t := by
  intro x hx
  obtain ⟨⟨i, hi⟩, rfl⟩ := List.mem_iff_get.mp hx
  have hroot := isHeap_le_root key (t :: rest) hh (i + 1) (by simpa using hi)
  simpa using hroot

theorem buildHeap_perm {α : Type} (key : α → Int) (l : List α) :
    List.Perm (buildHeap key l) l :=
  List.perm_insertionSort _ l

theorem buildHeap_isHeap {α : Type} (key : α → Int) (l : List α) :
    IsHeap key (buildHeap key l) := by
  haveI h1 : IsTotal α fun a b : α => key b ≤ key a := ⟨fun a b => le_total (key b) (key a)⟩
  haveI h2 : IsTrans α fun a b : α => key b ≤ key a :=
    ⟨fun _ _ _ hab hbc => le_trans hbc hab⟩
  have hs := List.sorted_insertionSort (fun a b : α => key b ≤ key a) l
  intro j hj hj0
  exact List.Sorted.rel_get_of_lt hs (show ((⟨(j - 1) / 2, _⟩ : Fin _) < ⟨j, hj⟩) by
    simp only [Fin.mk_lt_mk]
    omega)

theorem heapSiftDown_perm {α : Type} [DecidableEq α] (key : α → Int) (x : α)
    (rest : List α) :
    List.Perm (heapSiftDown key (x :: rest)) (x :: rest) := by
  show List.Perm (siftFrom key (x :: rest) 0 x) _
  have hp := siftFrom_perm key (x :: rest) 0 x (by simp)
  simpa using hp

theorem heapSiftDown_isHeap {α : Type} (key : α → Int) (x t : α) (rest : List α)
    (hh : IsHeap key (t :: rest)) : IsHeap key (heapSiftDown key (x :: rest)) := by
  show IsHeap key (siftFrom key (x :: rest) 0 x)
  have hget : ∀ (m : Nat) (hm : m < (x :: rest).length), 0 < m →
      (x :: rest).get ⟨m, hm⟩ = (t :: rest).get ⟨m, by simpa using hm⟩ := by
    intro m hm hm0
    match m, hm0 with
    | m + 1, _ => simp
  apply siftFrom_heap key (x :: rest) 0 x (by simp)
  · intro j hj hj0 hne
    rw [hget j hj hj0, hget _ _ (by omega)]
    exact hh j (by simpa using hj) hj0
  · intro j hj hpar h0 hpj
    omega
  · intro hpar h0
    omega

/-! Sorted-key bookkeeping for the top-k claim. -/

theorem sortKeys_perm_congr {α : Type} (key : α → Int) {l l' : List α}
    (h : List.Perm l l') : sortKeys key l = sortKeys key l' := by
  unfold sortKeys
  refine List.eq_of_perm_of_sorted ?_ (List.sorted_insertionSort _ _)
    (List.sorted_insertionSort _ _)
  exact (List.perm_insertionSort _ _).trans
    ((h.map key).trans (List.perm_insertionSort _ _).symm)

theorem sortKeys_sorted {α : Type} (key : α → Int) (l : List α) :
    List.Sorted (· ≤ ·) (sortKeys key l) :=
  List.sorted_insertionSort _ _

theorem sortKeys_length {α : Type} (key : α → Int) (l : List α) :
    (sortKeys key l).length = l.length := by
  unfold sortKeys
  rw [(List.perm_insertionSort _ _).length_eq, List.length_map]

theorem sortKeys_cons {α : Type} (key : α → Int) (t : α) (rest : List α) :
    sortKeys key (t :: rest) = List.orderedInsert (· ≤ ·) (key t) (sortKeys key rest) :=
  rfl

theorem sortKeys_append_singleton {α : Type} (key : α → Int) (xs : List α) (x : α) :
    sortKeys key (xs ++ [x]) = List.orderedInsert (· ≤ ·) (key x) (sortKeys key xs) := by
  rw [← sortKeys_cons]
  exact sortKeys_perm_congr key (List.perm_append_singleton x xs)

theorem mem_sortKeys {α : Type} (key : α → Int) (l : List α) (b : Int) :
    b ∈ sortKeys key l ↔ ∃ a ∈ l, key a = b := by
  unfold sortKeys
  rw [(List.perm_insertionSort _ _).mem_iff]
  simp [List.mem_map]

theorem OI_ge_append : ∀ (s : List Int) (y : Int), s.Sorted (· ≤ ·) →
    (∀ b ∈ s, b ≤ y) → List.orderedInsert (· ≤ ·) y s = s ++ [y]
  | [], y, _, _ => rfl
  | a :: s, y, hs, hb => by
    rw [List.orderedInsert]
    by_cases hya : y ≤ a
    · have hay : a ≤ y := hb a (by simp)
      have hae : a = y := le_antisymm hay hya
      have hall : ∀ b ∈ s, b = y := by
        intro b hbs
        have h1 : b ≤ y := hb b (by simp [hbs])
        have h2 : a ≤ b := (List.sorted_cons.mp hs).1 b hbs
        omega
      have hs_rep : s = List.replicate s.length y :=
        List.eq_replicate_of_mem hall
      rw [if_pos hya, hae, hs_rep]
      have hshift : List.replicate s.length y ++ [y] = y :: List.replicate s.length y := by
        rw [← List.replicate_succ', List.replicate_succ]
      rw [List.cons_append, hshift]
    · rw [if_neg hya]
      rw [OI_ge_append s y (List.sorted_cons.mp hs).2 (fun b hbs => hb b (by simp [hbs]))]
      rfl

theorem OI_append_left : ∀ (T D : List Int) (x : Int), (∃ b ∈ T, x ≤ b) →
    List.orderedInsert (· ≤ ·) x (T ++ D) = List.orderedInsert (· ≤ ·) x T ++ D
  | [], _, x, h => by simp at h
  | a :: T, D, x, h => by
    rw [List.cons_append, List.orderedInsert, List.orderedInsert]
    by_cases hxa : x ≤ a
    · rw [if_pos hxa, if_pos hxa]
      rfl
    · rw [if_neg hxa, if_neg hxa]
      have h' : ∃ b ∈ T, x ≤ b := by
        obtain ⟨b, hbm, hxb⟩ := h
        rcases List.mem_cons.mp hbm with hba | hbT
        · exact absurd (hba ▸ hxb) hxa
        · exact ⟨b, hbT, hxb⟩
      rw [OI_append_left T D x h']
      rfl

theorem OI_append_right : ∀ (T E : List Int) (x : Int), (∀ b ∈ T, ¬ x ≤ b) →
    List.orderedInsert (· ≤ ·) x (T ++ E) = T ++ List.orderedInsert (· ≤ ·) x E
  | [], _, _, _ => rfl
  | a :: T, E, x, h => by
    rw [List.cons_append, List.orderedInsert]
    rw [if_neg (h a (by simp))]
    rw [OI_append_right T E x (fun b hb => h b (by simp [hb]))]
    rfl

theorem take_OI_gt (T D : List Int) (k : Nat) (x m : Int)
    (hTk : T.length = k) (hb : ∀ b ∈ T, b ≤ m) (hx : m < x) :
    (List.orderedInsert (· ≤ ·) x (T ++ D)).take k = T := by
  rw [OI_append_right T D x (fun b hbT => by have := hb b hbT; omega)]
  exact List.take_left' hTk

theorem take_OI_le (T' D : List Int) (k : Nat) (x m : Int)
    (hT'k : T'.length + 1 = k) (hsortT : (T' ++ [m]).Sorted (· ≤ ·)) (hx : x ≤ m) :
    (List.orderedInsert (· ≤ ·) x ((T' ++ [m]) ++ D)).take k
      = List.orderedInsert (· ≤ ·) x T' := by
  rw [OI_append_left (T' ++ [m]) D x ⟨m, by simp, hx⟩]
  have hlen : (List.orderedInsert (· ≤ ·) x (T' ++ [m])).length = k + 1 := by
    rw [List.orderedInsert_length]
    simp only [List.length_append, List.length_singleton]
    omega
  rw [List.take_append_of_le_length (by omega)]
  by_cases hcase : ∃ b ∈ T', x ≤ b
  · rw [OI_append_left T' [m] x hcase]
    have hlen2 : (List.orderedInsert (· ≤ ·) x T').length = k := by
      rw [List.orderedInsert_length]
      omega
    rw [List.take_append_of_le_length (by omega)]
    rw [← hlen2, List.take_length]
  · push_neg at hcase
    rw [OI_append_right T' [m] x (fun b hb => by have := hcase b hb; omega)]
    rw [show List.orderedInsert (· ≤ ·) x [m] = [x, m] from by
      rw [List.orderedInsert, if_pos hx]]
    rw [List.take_append_eq_append_take]
    rw [List.take_of_length_le (by omega)]
    rw [show k - T'.length = 1 from by omega]
    rw [show ([x, m].take 1) = [x] from rfl]
    have hsortT' : T'.Sorted (· ≤ ·) := (List.pairwise_append.mp hsortT).1
    have hallx : ∀ b ∈ T', b ≤ x := fun b hb => by
      have := hcase b hb
      omega
    rw [OI_ge_append T' x hsortT' hallx]

theorem topKFinish_char {α : Type} (key : α → Int) (k : Nat) (t : α) (rest : List α)
    (x : α) (hlen : (t :: rest).length = k) :
    topKFinish key k ((t :: rest) ++ [x])
      = if key x ≤ key t then heapSiftDown key (x :: rest) else t :: rest := by
  unfold topKFinish
  have hL : ((t :: rest) ++ [x]).length = k + 1 := by
    rw [List.length_append, hlen]
    rfl
  rw [if_neg (by omega), if_neg (by omega)]
  have hdrop : ((t :: rest) ++ [x]).dropLast = t :: rest := List.dropLast_concat
  have hlast : ((t :: rest) ++ [x]).getLast? = some x := List.getLast?_concat _
  rw [hdrop, hlast]

theorem topKRun_step {α : Type} (key : α → Int) (k : Nat) (xs : List α) (x : α) :
    topKRun key k (xs ++ [x]) = topKFinish key k (topKRun key k xs ++ [x]) := by
  unfold topKRun
  rw [List.foldl_append]
  rfl

theorem topKRun_spec {α : Type} [DecidableEq α] (key : α → Int) (k : Nat) (hk : 1 ≤ k) :
    ∀ xs : List α,
      (xs.length < k → topKRun key k xs = xs)
      ∧ (k ≤ xs.length →
          (topKRun key k xs).length = k
          ∧ IsHeap key (topKRun key k xs)
          ∧ sortKeys key (topKRun key k xs) = (sortKeys key xs).take k) := by
  intro xs
  induction xs using List.reverseRecOn with
  | nil =>
    constructor
    · intro _; rfl
    · intro h
      simp only [List.length_nil] at h
      omega
  | append_singleton xs x ih =>
    rw [topKRun_step]
    have hxslen : (xs ++ [x]).length = xs.length + 1 := by simp
    by_cases hcase1 : xs.length + 1 < k
    · have hst : topKRun key k xs = xs := ih.1 (by omega)
      constructor
      · intro _
        rw [hst]
        unfold topKFinish
        rw [if_pos (by omega)]
      · intro hge
        rw [hxslen] at hge
        omega
    · by_cases hcase2 : xs.length + 1 = k
      · have hst : topKRun key k xs = xs := ih.1 (by omega)
        rw [hst]
        have hlen2 : (xs ++ [x]).length = k := by omega
        have hfin : topKFinish key k (xs ++ [x]) = buildHeap key (xs ++ [x]) := by
          unfold topKFinish
          rw [if_neg (by omega), if_pos hlen2]
        rw [hfin]
        constructor
        · intro hlt
          rw [hxslen] at hlt
          omega
        · intro _
          refine ⟨?_, buildHeap_isHeap key _, ?_⟩
          · rw [(buildHeap_perm key _).length_eq, hlen2]
          · rw [sortKeys_perm_congr key (buildHeap_perm key (xs ++ [x]))]
            have hklen : (sortKeys key (xs ++ [x])).length = k := by
              rw [sortKeys_length]
              exact hlen2
            rw [← hklen, List.take_length]
      · have hge : k ≤ xs.length := by omega
        obtain ⟨hlenst, hheap, hkeys⟩ := ih.2 hge
        cases hst : topKRun key k xs with
        | nil =>
          rw [hst] at hlenst
          simp only [List.length_nil] at hlenst
          omega
        | cons t rest =>
          rw [hst] at hlenst hheap hkeys
          rw [topKFinish_char key k t rest x hlenst]
          constructor
          · intro hlt
            rw [hxslen] at hlt
            omega
          · intro _
            have htmax : ∀ y ∈ rest, key y ≤ key t := isHeap_head_max key t rest hheap
            have hsplit : sortKeys key (t :: rest) = sortKeys key rest ++ [key t] := by
              rw [sortKeys_cons]
              refine OI_ge_append _ _ (sortKeys_sorted key rest) ?_
              intro b hb
              obtain ⟨a, haR, rfl⟩ := (mem_sortKeys key rest b).mp hb
              exact htmax a haR
            have hxs_split : sortKeys key xs
                = sortKeys key (t :: rest) ++ (sortKeys key xs).drop k := by
              conv_lhs => rw [← List.take_append_drop k (sortKeys key xs)]
              rw [hkeys]
            have hrestlen : (sortKeys key rest).length + 1 = k := by
              rw [sortKeys_length]
              simpa using hlenst
            by_cases hbr : key x ≤ key t
            · rw [if_pos hbr]
              refine ⟨?_, heapSiftDown_isHeap key x t rest hheap, ?_⟩
              · show (siftFrom key (x :: rest) 0 x).length = k
                rw [siftFrom_length]
                simpa using hlenst
              · rw [sortKeys_perm_congr key (heapSiftDown_perm key x rest)]
                rw [sortKeys_append_singleton, hxs_split, hsplit]
                rw [take_OI_le (sortKeys key rest) _ k (key x) (key t) hrestlen
                  (hsplit ▸ sortKeys_sorted key (t :: rest)) hbr]
                exact sortKeys_cons key x rest
            · rw [if_neg hbr]
              refine ⟨hlenst, hheap, ?_⟩
              rw [sortKeys_append_singleton, hxs_split]
              rw [take_OI_gt (sortKeys key (t :: rest)) _ k (key x) (key t) ?_ ?_ (by omega)]
              · rw [sortKeys_length]
                exact hlenst
              · intro b hb
                obtain ⟨a, haT, rfl⟩ := (mem_sortKeys key (t :: rest) b).mp hb
                rcases List.mem_cons.mp haT with rfl | haR
                · exact le_refl _
                · exact htmax a haR

/-- C1 counterexample: the claim says the buffered tuple "replaces the
current heap top and is sifted down exactly when it is less than the heap
top, and is discarded otherwise."  The source replaces on
`cmp_fn_(last, top) <= 0`.  With `k = 1` and two tuples of equal key
(comparator result 0, i.e. not less), the second tuple is *not* discarded:
it replaces the first, so the retained tuple is `(5, 2)` where the claim
requires `(5, 1)`. -/
theorem C1_counterexample :
    topKRun (fun p : Int × Int => p.1) 1 [(5, 1), (5, 2)] = [(5, 2)]
    ∧ topKRun (fun p : Int × Int => p.1) 1 [(5, 1), (5, 2)] ≠ [(5, 1)]
    ∧ ¬ ((fun p : Int × Int => p.1) (5, 2) < (fun p : Int × Int => p.1) (5, 1)) := by
  have hrun : topKRun (fun p : Int × Int => p.1) 1 [(5, 1), (5, 2)]
      = topKFinish (fun p : Int × Int => p.1) 1
          ((((5 : Int), (1 : Int)) :: []) ++ [((5 : Int), (2 : Int))]) := by
    unfold topKRun
    simp only [List.foldl_cons, List.foldl_nil, List.nil_append]
    rfl
  have heval : topKRun (fun p : Int × Int => p.1) 1 [(5, 1), (5, 2)] = [(5, 2)] := by
    rw [hrun, topKFinish_char _ 1 (5, 1) [] (5, 2) rfl]
    rw [if_pos (by norm_num)]
    show siftFrom _ [((5 : Int), (2 : Int))] 0 (5, 2) = [(5, 2)]
    rw [siftFrom, dif_pos (by simp)]
    rfl
  refine ⟨heval, ?_, by norm_num⟩
  rw [heval]
  simp

/-- C1 as amended: over every insertion sequence driven by
`AllocInputTupleTopK` + `AllocInputTupleTopKFinish(k)` (k ≥ 1), the
retained tuples are exactly a k-smallest selection under the comparator —
their sorted key multiset equals the first k keys of the sorted inserted
keys (all of them when fewer than k were inserted) — and once more than k
tuples are buffered, the last inserted tuple replaces the heap top and is
sifted down exactly when the comparator puts it less than *or equal to*
the heap top (`cmp_fn_(last, top) <= 0`), and is discarded otherwise. -/
theorem C1_top_k {α : Type} [DecidableEq α] (key : α → Int) (k : Nat) (hk : 1 ≤ k) :
    (∀ xs : List α,
      sortKeys key (topKRun key k xs) = (sortKeys key xs).take k)
    ∧ (∀ (t x : α) (rest : List α), (t :: rest).length = k →
        topKFinish key k ((t :: rest) ++ [x])
          = if key x ≤ key t then heapSiftDown key (x :: rest) else t :: rest) := by
  constructor
  · intro xs
    by_cases hlen : xs.length < k
    · rw [(topKRun_spec key k hk xs).1 hlen]
      rw [List.take_of_length_le (by rw [sortKeys_length]; omega)]
    · exact ((topKRun_spec key k hk xs).2 (by omega)).2.2
  · intro t x rest hlen
    exact topKFinish_char key k t rest x hlen

/-- C1 witness: the amended top-k property applied at `k = 2` over a
concrete insertion sequence. -/
theorem C1_top_k_witness :
    1 ≤ 2
    ∧ sortKeys (fun p : Int × Int => p.1)
        (topKRun (fun p : Int × Int => p.1) 2 [(3, 0), (1, 1), (2, 2)])
      = (sortKeys (fun p : Int × Int => p.1) [(3, 0), (1, 1), (2, 2)]).take 2 :=
  ⟨by decide,
   (C1_top_k (fun p : Int × Int => p.1) 2 (by decide)).1 [(3, 0), (1, 1), (2, 2)]⟩

/-! K-way merge lemmas for the parallel-sort claim. -/

theorem extractMinRange_cons_pos {α : Type} [LinearOrder α] (p q : α × List α)
    (rest : List (α × List α)) (h : p.1 ≤ q.1) :
    extractMinRange p (q :: rest)
      = ((extractMinRange p rest).1, q :: (extractMinRange p rest).2) := by
  simp [extractMinRange, if_pos h]

theorem extractMinRange_cons_neg {α : Type} [LinearOrder α] (p q : α × List α)
    (rest : List (α × List α)) (h : ¬ p.1 ≤ q.1) :
    extractMinRange p (q :: rest)
      = ((extractMinRange q rest).1, p :: (extractMinRange q rest).2) := by
  simp [extractMinRange, if_neg h]

theorem extractMinRange_perm {α : Type} [LinearOrder α] :
    ∀ (p : α × List α) (ps : List (α × List α)),
      List.Perm ((extractMinRange p ps).1 :: (extractMinRange p ps).2) (p :: ps)
  | _, [] => List.Perm.refl _
  | p, q :: rest => by
    by_cases hpq : p.1 ≤ q.1
    · rw [extractMinRange_cons_pos p q rest hpq]
      have ih := extractMinRange_perm p rest
      refine List.Perm.trans (List.Perm.swap q _ _) ?_
      refine List.Perm.trans (ih.cons q) (List.Perm.swap p q rest)
    · rw [extractMinRange_cons_neg p q rest hpq]
      have ih := extractMinRange_perm q rest
      exact List.Perm.trans (List.Perm.swap p _ _) (ih.cons p)

theorem extractMinRange_min {α : Type} [LinearOrder α] :
    ∀ (p : α × List α) (ps : List (α × List α)),
      ∀ q ∈ p :: ps, (extractMinRange p ps).1.1 ≤ q.1
  | _, [], q, hq => by
    rcases List.mem_cons.mp hq with hqp | h
    · rw [hqp]
      exact le_refl _
    · simp at h
  | p, q' :: rest, q, hq => by
    by_cases hpq : p.1 ≤ q'.1
    · rw [extractMinRange_cons_pos p q' rest hpq]
      rcases List.mem_cons.mp hq with hqp | hq2
      · rw [hqp]
        exact extractMinRange_min p rest p (List.mem_cons_self ..)
      rcases List.mem_cons.mp hq2 with hqq | hq3
      · rw [hqq]
        exact le_trans (extractMinRange_min p rest p (List.mem_cons_self ..)) hpq
      · exact extractMinRange_min p rest q (List.mem_cons_of_mem _ hq3)
    · rw [extractMinRange_cons_neg p q' rest hpq]
      rcases List.mem_cons.mp hq with hqp | hq2
      · rw [hqp]
        exact le_trans (extractMinRange_min q' rest q' (List.mem_cons_self ..))
          (le_of_not_le hpq)
      rcases List.mem_cons.mp hq2 with hqq | hq3
      · rw [hqq]
        exact extractMinRange_min q' rest q' (List.mem_cons_self ..)
      · exact extractMinRange_min q' rest q (List.mem_cons_of_mem _ hq3)

theorem rangeCount_perm_congr {α : Type} {rs rs' : List (α × List α)}
    (h : List.Perm rs rs') : rangeCount rs = rangeCount rs' := by
  unfold rangeCount
  exact (h.map _).sum_eq

theorem joinRanges_perm_congr {α : Type} {rs rs' : List (α × List α)}
    (h : List.Perm rs rs') : List.Perm (joinRanges rs) (joinRanges rs') :=
  (h.map _).flatten

theorem kMerge_step {α : Type} [LinearOrder α] (f : Nat) (p : α × List α)
    (ps : List (α × List α)) :
    kMerge (f + 1) (p :: ps)
      = (extractMinRange p ps).1.1
          :: kMerge f (match (extractMinRange p ps).1.2 with
            | [] => (extractMinRange p ps).2
            | y :: ys => (y, ys) :: (extractMinRange p ps).2) := by
  rw [kMerge]

theorem kMerge_perm {α : Type} [LinearOrder α] :
    ∀ (fuel : Nat) (rs : List (α × List α)), rangeCount rs ≤ fuel →
      List.Perm (kMerge fuel rs) (joinRanges rs) := by
  intro fuel
  induction fuel with
  | zero =>
    intro rs hc
    cases rs with
    | nil => exact List.Perm.refl _
    | cons p ps =>
      exfalso
      unfold rangeCount at hc
      simp only [List.map_cons, List.sum_cons] at hc
      omega
  | succ f ih =>
    intro rs hc
    cases rs with
    | nil => exact List.Perm.refl _
    | cons p ps =>
      rw [kMerge_step]
      have hperm := extractMinRange_perm p ps
      have hcount : rangeCount ((extractMinRange p ps).1 :: (extractMinRange p ps).2)
          = rangeCount (p :: ps) := rangeCount_perm_congr hperm
      have hjoin := joinRanges_perm_congr hperm
      cases hm2 : (extractMinRange p ps).1.2 with
      | nil =>
        have hcnt' : rangeCount (extractMinRange p ps).2 ≤ f := by
          unfold rangeCount at hcount hc ⊢
          simp only [List.map_cons, List.sum_cons, hm2, List.length_nil] at hcount hc
          omega
        have hrec := ih _ hcnt'
        refine List.Perm.trans (hrec.cons _) (List.Perm.trans ?_ hjoin)
        show List.Perm ((extractMinRange p ps).1.1 :: joinRanges (extractMinRange p ps).2)
          (joinRanges ((extractMinRange p ps).1 :: (extractMinRange p ps).2))
        unfold joinRanges
        simp [hm2]
      | cons y ys =>
        have hcnt' : rangeCount ((y, ys) :: (extractMinRange p ps).2) ≤ f := by
          unfold rangeCount at hcount hc ⊢
          simp only [List.map_cons, List.sum_cons, hm2, List.length_cons] at hcount hc ⊢
          omega
        have hrec := ih _ hcnt'
        refine List.Perm.trans (hrec.cons _) (List.Perm.trans ?_ hjoin)
        show List.Perm
          ((extractMinRange p ps).1.1 :: joinRanges ((y, ys) :: (extractMinRange p ps).2))
          (joinRanges ((extractMinRange p ps).1 :: (extractMinRange p ps).2))
        unfold joinRanges
        simp [hm2]

theorem kMerge_mem {α : Type} [LinearOrder α] :
    ∀ (fuel : Nat) (rs : List (α × List α)) (a : α), a ∈ kMerge fuel rs →
      a ∈ joinRanges rs := by
  intro fuel
  induction fuel with
  | zero => intro rs a ha; cases rs <;> simp [kMerge] at ha
  | succ f ih =>
    intro rs a ha
    cases rs with
    | nil => simp [kMerge] at ha
    | cons p ps =>
      rw [kMerge_step] at ha
      have hperm := extractMinRange_perm p ps
      have hjoin := joinRanges_perm_congr hperm
      refine hjoin.subset ?_
      rcases List.mem_cons.mp ha with rfl | hrec
      · unfold joinRanges
        simp
      · cases hm2 : (extractMinRange p ps).1.2 with
        | nil =>
          rw [hm2] at hrec
          have hmem := ih _ a hrec
          unfold joinRanges at hmem ⊢
          simp only [List.map_cons, List.flatten_cons, List.mem_append, List.mem_cons]
          right
          simpa using hmem
        | cons y ys =>
          rw [hm2] at hrec
          have hmem := ih _ a hrec
          unfold joinRanges at hmem ⊢
          simp only [List.map_cons, List.flatten_cons, List.mem_append,
            List.mem_cons, hm2] at hmem ⊢
          tauto

theorem sorted_head_le {α : Type} [LinearOrder α] (x : α) (l : List α)
    (h : (x :: l).Sorted (· ≤ ·)) : ∀ y ∈ x :: l, x ≤ y := by
  intro y hy
  rcases List.mem_cons.mp hy with rfl | hyl
  · exact le_refl _
  · exact List.rel_of_sorted_cons h y hyl

theorem kMerge_sorted {α : Type} [LinearOrder α] :
    ∀ (fuel : Nat) (rs : List (α × List α)),
      (∀ p ∈ rs, (p.1 :: p.2).Sorted (· ≤ ·)) →
      (kMerge fuel rs).Sorted (· ≤ ·) := by
  intro fuel
  induction fuel with
  | zero => intro rs _; cases rs <;> simp [kMerge]
  | succ f ih =>
    intro rs hs
    cases rs with
    | nil => simp [kMerge]
    | cons p ps =>
      rw [kMerge_step]
      have hperm := extractMinRange_perm p ps
      have hm_mem : (extractMinRange p ps).1 ∈ p :: ps :=
        hperm.subset (List.mem_cons_self ..)
      have hm_sorted : ((extractMinRange p ps).1.1 :: (extractMinRange p ps).1.2).Sorted
          (· ≤ ·) := hs _ hm_mem
      have hrest_mem : ∀ q ∈ (extractMinRange p ps).2, q ∈ p :: ps := fun q hq =>
        hperm.subset (List.mem_cons_of_mem _ hq)
      cases hm2 : (extractMinRange p ps).1.2 with
      | nil =>
        have hs' : ∀ q ∈ (extractMinRange p ps).2, (q.1 :: q.2).Sorted (· ≤ ·) :=
          fun q hq => hs q (hrest_mem q hq)
        refine List.sorted_cons.mpr ⟨?_, ih _ hs'⟩
        intro z hz
        have hzj := kMerge_mem f _ z hz
        unfold joinRanges at hzj
        obtain ⟨l, hl, hzl⟩ := List.mem_flatten.mp hzj
        obtain ⟨q, hq, rfl⟩ := List.mem_map.mp hl
        have h1 : (extractMinRange p ps).1.1 ≤ q.1 :=
          extractMinRange_min p ps q (hrest_mem q hq)
        have h2 : q.1 ≤ z := sorted_head_le q.1 q.2 (hs' q hq) z hzl
        exact le_trans h1 h2
      | cons y ys =>
        have hs' : ∀ q ∈ ((y, ys) :: (extractMinRange p ps).2),
            (q.1 :: q.2).Sorted (· ≤ ·) := by
          intro q hq
          rcases List.mem_cons.mp hq with rfl | hq2
          · rw [hm2] at hm_sorted
            exact hm_sorted.of_cons
          · exact hs q (hrest_mem q hq2)
        refine List.sorted_cons.mpr ⟨?_, ih _ hs'⟩
        intro z hz
        have hzj := kMerge_mem f _ z hz
        unfold joinRanges at hzj
        obtain ⟨l, hl, hzl⟩ := List.mem_flatten.mp hzj
        obtain ⟨q, hq, rfl⟩ := List.mem_map.mp hl
        rcases List.mem_cons.mp hq with rfl | hq2
        · -- z comes from the advanced remainder of the minimal range itself
          rw [hm2] at hm_sorted
          exact List.rel_of_sorted_cons hm_sorted z hzl
        · have h1 : (extractMinRange p ps).1.1 ≤ q.1 :=
            extractMinRange_min p ps q (hrest_mem q hq2)
          have h2 : q.1 ≤ z :=
            sorted_head_le q.1 q.2 (hs q (hrest_mem q hq2)) z hzl
          exact le_trans h1 h2

theorem joinRanges_filterMap {α : Type} :
    ∀ ranges : List (List α), joinRanges (ranges.filterMap toRange) = ranges.flatten
  | [] => rfl
  | [] :: rest => by
    simp only [List.filterMap_cons, toRange, List.flatten_cons, List.nil_append]
    exact joinRanges_filterMap rest
  | (x :: xs) :: rest => by
    simp only [List.filterMap_cons, toRange, List.flatten_cons]
    show (x :: xs) ++ joinRanges (rest.filterMap toRange) = (x :: xs) ++ rest.flatten
    rw [joinRanges_filterMap rest]

theorem kwayMerge_perm {α : Type} [LinearOrder α] (ranges : List (List α)) :
    List.Perm (kwayMerge ranges) ranges.flatten := by
  unfold kwayMerge
  refine List.Perm.trans (kMerge_perm _ _ le_rfl) ?_
  rw [joinRanges_filterMap]

theorem kwayMerge_sorted {α : Type} [LinearOrder α] (ranges : List (List α))
    (hs : ∀ r ∈ ranges, r.Sorted (· ≤ ·)) :
    (kwayMerge ranges).Sorted (· ≤ ·) := by
  unfold kwayMerge
  refine kMerge_sorted _ _ ?_
  intro p hp
  obtain ⟨r, hr, hrp⟩ := List.mem_filterMap.mp hp
  cases r with
  | nil => simp [toRange] at hrp
  | cons x xs =>
    simp only [toRange, Option.some_inj] at hrp
    rw [← hrp]
    exact hs _ hr

/-! Bucketing lemmas for the parallel-sort claim. -/

theorem bucketize_flatten {α : Type} [LinearOrder α] :
    ∀ (ss : List α) (xs : List α), (bucketize ss xs).flatten = xs
  | [], xs => by simp [bucketize]
  | s :: ss, xs => by
    simp only [bucketize, List.flatten_cons]
    rw [bucketize_flatten ss]
    exact List.takeWhile_append_dropWhile ..

theorem bucketize_length {α : Type} [LinearOrder α] :
    ∀ (ss : List α) (xs : List α), (bucketize ss xs).length = ss.length + 1
  | [], _ => rfl
  | s :: ss, xs => by
    simp only [bucketize, List.length_cons]
    rw [bucketize_length ss]

theorem bucketize_sorted {α : Type} [LinearOrder α] :
    ∀ (ss : List α) (xs : List α), xs.Sorted (· ≤ ·) →
      ∀ b ∈ bucketize ss xs, b.Sorted (· ≤ ·)
  | [], xs, hxs, b, hb => by
    simp only [bucketize, List.mem_singleton] at hb
    exact hb ▸ hxs
  | s :: ss, xs, hxs, b, hb => by
    simp only [bucketize, List.mem_cons] at hb
    rcases hb with rfl | hb2
    · exact hxs.sublist (List.takeWhile_sublist _)
    · exact bucketize_sorted ss _ (hxs.sublist (List.dropWhile_sublist _)) b hb2

theorem mem_dropWhile_gt {α : Type} [LinearOrder α] (s : α) :
    ∀ xs : List α, xs.Sorted (· ≤ ·) →
      ∀ b ∈ xs.dropWhile (fun a => a ≤ s), s < b
  | [], _, b, hb => by simp [List.dropWhile] at hb
  | x :: xs, hxs, b, hb => by
    rw [List.dropWhile_cons] at hb
    by_cases hxle : x ≤ s
    · rw [if_pos (by simpa using hxle)] at hb
      exact mem_dropWhile_gt s xs hxs.of_cons b hb
    · rw [if_neg (by simpa using hxle)] at hb
      rcases List.mem_cons.mp hb with rfl | hb2
      · exact not_le.mp hxle
      · have hxb : x ≤ b := List.rel_of_sorted_cons hxs b hb2
        exact lt_of_lt_of_le (not_le.mp hxle) hxb

theorem bucketize_le_splitter {α : Type} [LinearOrder α] :
    ∀ (ss : List α) (xs : List α) (i : Nat) (hi : i < ss.length),
      ∀ a ∈ (bucketize ss xs).getD i [], a ≤ ss.get ⟨i, hi⟩
  | [], _, _, hi => by simp at hi
  | s :: ss, xs, 0, _ => by
    intro a ha
    simp only [bucketize, List.getD_cons_zero] at ha
    have := List.mem_takeWhile_imp ha
    simpa using this
  | s :: ss, xs, i + 1, hi => by
    intro a ha
    simp only [bucketize, List.getD_cons_succ] at ha
    exact bucketize_le_splitter ss _ i (by simpa using hi) a ha

theorem bucketize_gt_splitter {α : Type} [LinearOrder α] :
    ∀ (ss : List α) (xs : List α), xs.Sorted (· ≤ ·) →
      ∀ (i j : Nat) (hi : i < ss.length), i < j →
        ∀ b ∈ (bucketize ss xs).getD j [], ss.get ⟨i, hi⟩ < b
  | [], _, _, _, _, hi => by simp at hi
  | s :: ss, xs, hxs, 0, j, _ => by
    intro hij b hb
    -- bucket j (j ≥ 1) lives inside the dropWhile remainder, all of which is > s
    match j, hij with
    | j + 1, _ =>
      simp only [bucketize, List.getD_cons_succ] at hb
      have hbmem : b ∈ (bucketize ss (xs.dropWhile fun a => a ≤ s)).flatten := by
        by_cases hjlen : j < (bucketize ss (xs.dropWhile fun a => a ≤ s)).length
        · refine List.mem_flatten_of_mem ?_ hb
          rw [List.getD_eq_getElem _ _ hjlen]
          exact List.getElem_mem hjlen
        · rw [List.getD_eq_default _ _ (by omega)] at hb
          simp at hb
      rw [bucketize_flatten] at hbmem
      simpa using mem_dropWhile_gt s xs hxs b hbmem
  | s :: ss, xs, hxs, i + 1, j, hi => by
    intro hij b hb
    match j, hij with
    | j + 1, hij' =>
      simp only [bucketize, List.getD_cons_succ] at hb
      have hsorted' : (xs.dropWhile fun a => a ≤ s).Sorted (· ≤ ·) :=
        hxs.sublist (List.dropWhile_sublist _)
      have := bucketize_gt_splitter ss _ hsorted' i j (by simpa using hi) (by omega) b hb
      simpa using this

theorem flatten_map_perm {ι α : Type} (l : List ι) (f g : ι → List α)
    (h : ∀ i ∈ l, List.Perm (f i) (g i)) :
    List.Perm (l.map f).flatten (l.map g).flatten := by
  induction l with
  | nil => simp
  | cons a l ih =>
    simp only [List.map_cons, List.flatten_cons]
    exact (h a (by simp)).append (ih fun i hi => h i (by simp [hi]))

theorem flatten_map_append_perm {ι α : Type} (l : List ι) (f g : ι → List α) :
    List.Perm (l.map fun i => f i ++ g i).flatten ((l.map f).flatten ++ (l.map g).flatten) := by
  induction l with
  | nil => simp
  | cons a l ih =>
    simp only [List.map_cons, List.flatten_cons]
    refine List.Perm.trans (List.Perm.append_left (f a ++ g a) ih) ?_
    rw [List.append_assoc (f a), List.append_assoc (f a)]
    refine List.Perm.append_left (f a) ?_
    rw [← List.append_assoc (g a)]
    refine List.Perm.trans
      (List.Perm.append_right ((l.map g).flatten) (List.perm_append_comm)) ?_
    rw [List.append_assoc]

theorem getD_range_flatten {α : Type} :
    ∀ bs : List (List α), ((List.range bs.length).map fun i => bs.getD i []).flatten = bs.flatten
  | [] => by simp
  | b :: bs => by
    rw [List.length_cons, List.range_succ_eq_map]
    simp only [List.map_cons, List.getD_cons_zero, List.map_map, List.flatten_cons]
    have hcomp : ((fun i => (b :: bs).getD i []) ∘ Nat.succ) = fun i => bs.getD i [] := by
      funext i
      simp
    rw [hcomp, getD_range_flatten bs]

theorem flatten_transpose_perm {α : Type} :
    ∀ (bss : List (List (List α))) (n : Nat), (∀ bs ∈ bss, bs.length = n) →
      List.Perm ((List.range n).map fun i => (bss.map fun bs => bs.getD i []).flatten).flatten
        ((bss.map List.flatten).flatten)
  | [], n, _ => by
    simp
  | bs :: bss, n, hlen => by
    have hbs : bs.length = n := hlen bs (by simp)
    simp only [List.map_cons, List.flatten_cons]
    refine List.Perm.trans (flatten_map_append_perm (List.range n) _ _) ?_
    refine List.Perm.append ?_
      (flatten_transpose_perm bss n (fun b hb => hlen b (by simp [hb])))
    rw [← hbs, getD_range_flatten bs]

theorem sorted_flatten_chain {α : Type} [LinearOrder α] :
    ∀ L : List (List α), (∀ m ∈ L, m.Sorted (· ≤ ·)) →
      L.Pairwise (fun m1 m2 => ∀ a ∈ m1, ∀ b ∈ m2, a ≤ b) →
      L.flatten.Sorted (· ≤ ·)
  | [], _, _ => by simp
  | m :: L, hs, hp => by
    simp only [List.flatten_cons]
    have hpc := List.pairwise_cons.mp hp
    refine List.pairwise_append.mpr ⟨hs m (by simp),
      sorted_flatten_chain L (fun x hx => hs x (by simp [hx])) hpc.2, ?_⟩
    intro a ha b hb
    obtain ⟨m2, hm2, hbm2⟩ := List.mem_flatten.mp hb
    exact hpc.1 m2 hm2 a ha b hbm2

theorem mergeOutput_perm {α : Type} [LinearOrder α] [Inhabited α] (runs : List (List α)) :
    List.Perm (mergeOutput runs) runs.flatten := by
  unfold mergeOutput
  refine List.Perm.trans
    (flatten_map_perm (List.range ((splitterKeys runs).length + 1))
      (fun i => kwayMerge ((runBuckets runs).map fun bs => bs.getD i []))
      (fun i => ((runBuckets runs).map fun bs => bs.getD i []).flatten)
      (fun i _ => kwayMerge_perm _)) ?_
  refine List.Perm.trans
    (flatten_transpose_perm (runBuckets runs) ((splitterKeys runs).length + 1) ?_) ?_
  · intro bs hbs
    obtain ⟨r, _, rfl⟩ := List.mem_map.mp hbs
    exact bucketize_length _ r
  · unfold runBuckets
    rw [List.map_map]
    have hmc : runs.map (List.flatten ∘ bucketize (splitterKeys runs)) = runs.map id := by
      refine List.map_congr_left ?_
      intro r _
      exact bucketize_flatten _ r
    rw [hmc, List.map_id]

theorem mergeOutput_sorted {α : Type} [LinearOrder α] [Inhabited α] (runs : List (List α))
    (hs : ∀ r ∈ runs, r.Sorted (· ≤ ·)) :
    (mergeOutput runs).Sorted (· ≤ ·) := by
  unfold mergeOutput
  refine sorted_flatten_chain _ ?_ ?_
  · intro m hm
    obtain ⟨i, _, rfl⟩ := List.mem_map.mp hm
    refine kwayMerge_sorted _ ?_
    intro r hr
    obtain ⟨bs, hbs, rfl⟩ := List.mem_map.mp hr
    obtain ⟨run, hrun, rfl⟩ := List.mem_map.mp hbs
    by_cases hlen : i < (bucketize (splitterKeys runs) run).length
    · rw [List.getD_eq_getElem _ _ hlen]
      exact bucketize_sorted _ run (hs run hrun) _ (List.getElem_mem hlen)
    · rw [List.getD_eq_default _ _ (by omega)]
      simp
  · rw [List.pairwise_map]
    refine List.Pairwise.imp_of_mem ?_ (List.pairwise_lt_range _)
    intro i j hi hj hij a ha b hb
    rw [List.mem_range] at hi hj
    have hiL : i < (splitterKeys runs).length := by omega
    have ha2 : a ∈ ((runBuckets runs).map fun bs => bs.getD i []).flatten :=
      (kwayMerge_perm _).subset ha
    have hb2 : b ∈ ((runBuckets runs).map fun bs => bs.getD j []).flatten :=
      (kwayMerge_perm _).subset hb
    simp only [runBuckets, List.map_map] at ha2 hb2
    obtain ⟨ba, hba, haba⟩ := List.mem_flatten.mp ha2
    obtain ⟨runa, hruna, rfl⟩ := List.mem_map.mp hba
    obtain ⟨bb, hbb, hbbb⟩ := List.mem_flatten.mp hb2
    obtain ⟨runb, hrunb, rfl⟩ := List.mem_map.mp hbb
    have hale : a ≤ (splitterKeys runs).get ⟨i, hiL⟩ :=
      bucketize_le_splitter _ runa i hiL a haba
    have hblt : (splitterKeys runs).get ⟨i, hiL⟩ < b :=
      bucketize_gt_splitter _ runb (hs runb hrunb) i j hiL hij b hbbb
    exact le_trans hale hblt.le

theorem mergeOutput_eq {α : Type} [LinearOrder α] [Inhabited α] (runs : List (List α))
    (hs : ∀ r ∈ runs, r.Sorted (· ≤ ·)) :
    mergeOutput runs = List.insertionSort (· ≤ ·) runs.flatten := by
  refine List.eq_of_perm_of_sorted ?_ (mergeOutput_sorted runs hs)
    (List.sorted_insertionSort _ _)
  exact (mergeOutput_perm runs).trans (List.perm_insertionSort _ _).symm

theorem filter_tuples_flatten {α : Type} (locals : List (Sorter α)) :
    ((locals.filter fun s => ¬ s.tuples.isEmpty).map fun s => s.tuples).flatten
      = (locals.map fun s => s.tuples).flatten := by
  induction locals with
  | nil => rfl
  | cons s ls ih =>
    by_cases h : s.tuples.isEmpty
    · rw [List.filter_cons_of_neg (by simp [h])]
      simp only [List.map_cons, List.flatten_cons]
      rw [ih, List.isEmpty_iff.mp h, List.nil_append]
    · rw [List.filter_cons_of_pos (by simp [h])]
      simp only [List.map_cons, List.flatten_cons]
      rw [ih]

theorem sortSerial_tuples_perm {α : Type} [LinearOrder α] (s : Sorter α) :
    List.Perm (Sorter.sortSerial s).tuples s.tuples := by
  unfold Sorter.sortSerial
  split
  · exact List.Perm.refl _
  · split
    · exact List.Perm.refl _
    · exact List.perm_insertionSort _ _

theorem sortSerial_sorted_tuples {α : Type} [LinearOrder α] (s : Sorter α)
    (h : s.sorted = true → s.tuples.Sorted (· ≤ ·)) :
    (Sorter.sortSerial s).tuples.Sorted (· ≤ ·) := by
  unfold Sorter.sortSerial
  split
  · next hs => exact h hs
  · split
    · next he =>
      rw [List.isEmpty_iff.mp he]
      exact List.sorted_nil
    · exact List.sorted_insertionSort _ _

theorem sortParallel_eq {α : Type} [LinearOrder α] [Inhabited α] (minTuples : Nat)
    (owner : Sorter α) (locals : List (Sorter α)) :
    Sorter.sortParallel minTuples owner locals
      = (if (locals.filter fun s => ¬ s.tuples.isEmpty).isEmpty
          then { owner with sorted := true }
         else if (locals.filter fun s => ¬ s.tuples.isEmpty).length = 1
              ∨ (((locals.filter fun s => ¬ s.tuples.isEmpty).map
                   fun s => s.tuples.length).sum) < minTuples
          then Sorter.sortSerial { owner with tuples := owner.tuples
                ++ (((locals.filter fun s => ¬ s.tuples.isEmpty).map
                     fun s => s.tuples).flatten) }
          else { tuples := mergeOutput ((locals.filter fun s => ¬ s.tuples.isEmpty).map
                  fun s => (Sorter.sortSerial s).tuples), sorted := true }) := rfl

/-- C2: for every collection of thread-local sorters sharing one comparator
(each satisfying the sorter invariant that its sorted flag implies its
tuple sequence is ordered), `Sorter::SortParallel` on a fresh owning sorter
produces exactly the tuple sequence obtained by moving all tuples into a
single sorter and running the serial `Sorter::Sort`; and whenever at most
one thread-local sorter is non-empty or the total tuple count is below the
minimum-tuples-for-parallel-sort threshold, `SortParallel` moves all tuple
pointers of the non-empty locals into the owning sorter and runs the
serial sort on it. -/
theorem C2_parallel_sort {α : Type} [LinearOrder α] [Inhabited α]
    (minTuples : Nat) (owner : Sorter α) (locals : List (Sorter α))
    (hcons : ∀ s ∈ locals, s.sorted = true → s.tuples.Sorted (· ≤ ·)) :
    ((Sorter.sortParallel minTuples ⟨[], false⟩ locals).tuples
        = (Sorter.sortSerial ⟨(locals.map fun s => s.tuples).flatten, false⟩).tuples)
    ∧ (¬ (locals.filter fun s => ¬ s.tuples.isEmpty) = [] →
        ((locals.filter fun s => ¬ s.tuples.isEmpty).length = 1
          ∨ (((locals.filter fun s => ¬ s.tuples.isEmpty).map
               fun s => s.tuples.length).sum) < minTuples) →
        Sorter.sortParallel minTuples owner locals
          = Sorter.sortSerial { owner with tuples := owner.tuples
              ++ (((locals.filter fun s => ¬ s.tuples.isEmpty).map
                   fun s => s.tuples).flatten) }) := by
  constructor
  · rw [sortParallel_eq]
    by_cases htl : ((locals.filter fun s => ¬ s.tuples.isEmpty).isEmpty : Bool)
    · rw [if_pos htl]
      have hflat : (locals.map fun s => s.tuples).flatten = [] := by
        rw [← filter_tuples_flatten, List.isEmpty_iff.mp htl]
        rfl
      rw [hflat]
      rfl
    · rw [if_neg htl]
      have hperm : List.Perm (((locals.filter fun s => ¬ s.tuples.isEmpty).map
          fun s => (Sorter.sortSerial s).tuples).flatten)
          ((locals.map fun s => s.tuples).flatten) := by
        refine List.Perm.trans (flatten_map_perm (locals.filter fun s => ¬ s.tuples.isEmpty)
          (fun s => (Sorter.sortSerial s).tuples) (fun s => s.tuples)
          (fun s _ => sortSerial_tuples_perm s)) ?_
        exact List.Perm.of_eq (filter_tuples_flatten locals)
      have hruns_sorted : ∀ r ∈ (locals.filter fun s => ¬ s.tuples.isEmpty).map
          fun s => (Sorter.sortSerial s).tuples, r.Sorted (· ≤ ·) := by
        intro r hr
        obtain ⟨s, hsm, rfl⟩ := List.mem_map.mp hr
        exact sortSerial_sorted_tuples s (hcons s (List.mem_of_mem_filter hsm))
      by_cases hcond : (locals.filter fun s => ¬ s.tuples.isEmpty).length = 1
          ∨ (((locals.filter fun s => ¬ s.tuples.isEmpty).map
               fun s => s.tuples.length).sum) < minTuples
      · rw [if_pos hcond]
        show (Sorter.sortSerial ⟨[] ++ ((locals.filter fun s => ¬ s.tuples.isEmpty).map
            fun s => s.tuples).flatten, false⟩).tuples
          = (Sorter.sortSerial ⟨(locals.map fun s => s.tuples).flatten, false⟩).tuples
        rw [List.nil_append, filter_tuples_flatten]
      · rw [if_neg hcond]
        show mergeOutput ((locals.filter fun s => ¬ s.tuples.isEmpty).map
            fun s => (Sorter.sortSerial s).tuples)
          = (Sorter.sortSerial ⟨(locals.map fun s => s.tuples).flatten, false⟩).tuples
        by_cases hF : (locals.map fun s => s.tuples).flatten = []
        · rw [mergeOutput_eq _ hruns_sorted]
          have h0 : (((locals.filter fun s => ¬ s.tuples.isEmpty).map
              fun s => (Sorter.sortSerial s).tuples).flatten) = [] := by
            refine List.Perm.eq_nil ?_
            rw [← hF]
            exact hperm
          rw [h0, hF]
          rfl
        · have hRHS : (Sorter.sortSerial
              ⟨(locals.map fun s => s.tuples).flatten, false⟩).tuples
              = List.insertionSort (· ≤ ·) ((locals.map fun s => s.tuples).flatten) := by
            unfold Sorter.sortSerial
            rw [if_neg (by simp), if_neg (by simpa using hF)]
          rw [hRHS, mergeOutput_eq _ hruns_sorted]
          refine List.eq_of_perm_of_sorted ?_ (List.sorted_insertionSort _ _)
            (List.sorted_insertionSort _ _)
          refine List.Perm.trans (List.perm_insertionSort _ _) ?_
          exact List.Perm.trans hperm (List.perm_insertionSort _ _).symm
  · intro hne hcond
    rw [sortParallel_eq, if_neg (by simpa using hne), if_pos hcond]

/-- C2 witness: two concrete thread-local sorters, one pre-sorted, merged by
the parallel path agree with the serial sort of the combined tuples. -/
theorem C2_parallel_sort_witness :
    (∀ s ∈ [(⟨[3, 1], false⟩ : Sorter Int), ⟨[2], true⟩],
        s.sorted = true → s.tuples.Sorted (· ≤ ·))
    ∧ ((Sorter.sortParallel 2 ⟨[], false⟩
          [(⟨[3, 1], false⟩ : Sorter Int), ⟨[2], true⟩]).tuples
        = (Sorter.sortSerial
            ⟨([(⟨[3, 1], false⟩ : Sorter Int), ⟨[2], true⟩].map
                fun s => s.tuples).flatten, false⟩).tuples) :=
  ⟨by decide,
   (C2_parallel_sort 2 ⟨[], false⟩
      [(⟨[3, 1], false⟩ : Sorter Int), ⟨[2], true⟩] (by decide)).1⟩

end TplSpec
